import Mathlib

/-!
# Verification of the GitLab project-identity resolution and MR orchestration core

A shallow embedding of the resolver / merge-request orchestration logic of the
`gitlab-review-mcp` server (sources: `src/index.ts`, `src/api-client.ts`),
together with proofs deciding the specification claims about it.

Conventions of the embedding:
* JavaScript strings are Lean `String`s (`List Char` for the recursive parts);
  only ASCII and BMP behaviour is exercised by the code under study.
* `undefined`/`null` are `Option.none`; a JS string-truthiness test
  (`if (s)`) is `s ≠ ""` on the payload (`strTruthy`).
* A thrown exception is the `Except.error` branch; a `try/catch` is a `match`
  on it.  The HTTP world is an environment (`ResolveEnv`) mapping the two
  GitLab endpoints the resolver uses to their axios-level outcomes, and every
  run additionally returns the list of wire calls it issued (`ApiCall`),
  which is how "no request was sent" claims are stated.
-/

namespace GitlabReviewMcp

deriving instance DecidableEq for Except

/-! ## JavaScript string primitives used by the code -/

/-- The characters JavaScript `String.prototype.trim` and the regex class
`\s` strip: WhiteSpace plus LineTerminator code points. -/
def isJsWhitespace (c : Char) : Bool :=
  (9 ≤ c.toNat ∧ c.toNat ≤ 13) ∨ c.toNat = 32 ∨ c.toNat = 160 ∨ c.toNat = 5760 ∨
  (8192 ≤ c.toNat ∧ c.toNat ≤ 8202) ∨ c.toNat = 8232 ∨ c.toNat = 8233 ∨
  c.toNat = 8239 ∨ c.toNat = 8287 ∨ c.toNat = 12288 ∨ c.toNat = 65279

def trimStartList (l : List Char) : List Char := l.dropWhile isJsWhitespace

def trimEndList (l : List Char) : List Char := (trimStartList l.reverse).reverse

/-- JavaScript `s.trim()` on the character list. -/
def jsTrimList (l : List Char) : List Char := trimEndList (trimStartList l)

def jsTrim (s : String) : String := ⟨jsTrimList s.data⟩

/-- The regex `\d` class. -/
def isDigitChar (c : Char) : Bool := 48 ≤ c.toNat ∧ c.toNat ≤ 57

/-- The characters `encodeURIComponent` leaves unescaped:
`A–Z a–z 0–9 - _ . ! ~ * ' ( )`. -/
def isUriUnreserved (c : Char) : Bool :=
  (65 ≤ c.toNat ∧ c.toNat ≤ 90) ∨ (97 ≤ c.toNat ∧ c.toNat ≤ 122) ∨
  (48 ≤ c.toNat ∧ c.toNat ≤ 57) ∨ c.toNat = 33 ∨ (39 ≤ c.toNat ∧ c.toNat ≤ 42) ∨
  c.toNat = 45 ∨ c.toNat = 46 ∨ c.toNat = 95 ∨ c.toNat = 126

/-- UTF-8 bytes of a code point (what `encodeURIComponent` percent-escapes). -/
def utf8Bytes (c : Char) : List Nat :=
  let n := c.toNat
  if n < 128 then [n]
  else if n < 2048 then [192 + n / 64, 128 + n % 64]
  else if n < 65536 then [224 + n / 4096, 128 + (n / 64) % 64, 128 + n % 64]
  else [240 + n / 262144, 128 + (n / 4096) % 64, 128 + (n / 64) % 64, 128 + n % 64]

/-- Upper-case hex digit, as produced by `encodeURIComponent`. -/
def hexDigitChar (n : Nat) : Char :=
  if n < 10 then Char.ofNat (48 + n) else Char.ofNat (55 + n)

def percentByte (b : Nat) : List Char := ['%', hexDigitChar (b / 16), hexDigitChar (b % 16)]

def encodeChar (c : Char) : List Char :=
  if isUriUnreserved c then [c] else (utf8Bytes c).flatMap percentByte

def encodeURIComponentList (l : List Char) : List Char := l.flatMap encodeChar

/-- JavaScript `encodeURIComponent`. -/
def encodeURIComponent (s : String) : String := ⟨encodeURIComponentList s.data⟩

/-- Value of a hex digit, either case (`decodeURIComponent` accepts both). -/
def hexVal (c : Char) : Option Nat :=
  if 48 ≤ c.toNat ∧ c.toNat ≤ 57 then some (c.toNat - 48)
  else if 65 ≤ c.toNat ∧ c.toNat ≤ 70 then some (c.toNat - 55)
  else if 97 ≤ c.toNat ∧ c.toNat ≤ 102 then some (c.toNat - 87)
  else none

/-- The value of one `%HH` escape, given its two hex digits. -/
def escByte (h1 h2 : Char) : Option Nat :=
  match hexVal h1, hexVal h2 with
  | some a, some b => some (16 * a + b)
  | _, _ => none

/-- A continuation byte `0x80`–`0xBF`: its 6-bit payload. -/
def contPayload (b : Nat) : Option Nat :=
  if 128 ≤ b ∧ b < 192 then some (b - 128) else none

/-- JavaScript `decodeURIComponent` on a character list: `%HH` escapes are
decoded as UTF-8 byte sequences (with the minimal-encoding, surrogate and
range checks the ECMA-262 `Decode` algorithm performs); `none` models the
`URIError` throw on malformed input. -/
def decodeList : List Char → Option (List Char)
  | [] => some []
  | '%' :: h1 :: h2 :: rest =>
    match escByte h1 h2 with
    | none => none
    | some b1 =>
      if b1 < 128 then
        match decodeList rest with
        | some l => some (Char.ofNat b1 :: l)
        | none => none
      else if b1 < 192 then none
      else if b1 < 224 then
        match rest with
        | '%' :: h3 :: h4 :: rest2 =>
          match (escByte h3 h4).bind contPayload with
          | none => none
          | some p2 =>
            let cp := (b1 - 192) * 64 + p2
            if 128 ≤ cp then
              match decodeList rest2 with
              | some l => some (Char.ofNat cp :: l)
              | none => none
            else none
        | _ => none
      else if b1 < 240 then
        match rest with
        | '%' :: h3 :: h4 :: '%' :: h5 :: h6 :: rest3 =>
          match (escByte h3 h4).bind contPayload, (escByte h5 h6).bind contPayload with
          | some p2, some p3 =>
            let cp := (b1 - 224) * 4096 + p2 * 64 + p3
            if 2048 ≤ cp ∧ ¬(55296 ≤ cp ∧ cp ≤ 57343) then
              match decodeList rest3 with
              | some l => some (Char.ofNat cp :: l)
              | none => none
            else none
          | _, _ => none
        | _ => none
      else if b1 < 248 then
        match rest with
        | '%' :: h3 :: h4 :: '%' :: h5 :: h6 :: '%' :: h7 :: h8 :: rest4 =>
          match (escByte h3 h4).bind contPayload, (escByte h5 h6).bind contPayload,
                (escByte h7 h8).bind contPayload with
          | some p2, some p3, some p4 =>
            let cp := (b1 - 240) * 262144 + p2 * 4096 + p3 * 64 + p4
            if 65536 ≤ cp ∧ cp ≤ 1114111 then
              match decodeList rest4 with
              | some l => some (Char.ofNat cp :: l)
              | none => none
            else none
          | _, _, _ => none
        | _ => none
      else none
  | '%' :: _ => none
  | c :: rest =>
    match decodeList rest with
    | some l => some (c :: l)
    | none => none

/-- JavaScript `decodeURIComponent`; `none` is the `URIError` throw. -/
def decodeURIComponent (s : String) : Option String :=
  (decodeList s.data).map List.asString

/-- JavaScript `s.split(sep)` for a one-character separator. -/
def splitChar (sep : Char) : List Char → List (List Char)
  | [] => [[]]
  | c :: rest =>
    if c = sep then [] :: splitChar sep rest
    else
      match splitChar sep rest with
      | g :: gs => (c :: g) :: gs
      | [] => [[c]]

/-- JS truthiness of a possibly-undefined string: `undefined`, `null` and
`""` are falsy. -/
def strTruthy : Option String → Bool
  | some s => s ≠ ""
  | none => false

/-- Does the list start with the given prefix of characters
(`String.prototype.startsWith`)? -/
def listStartsWith : List Char → List Char → Bool
  | _, [] => true
  | [], _ :: _ => false
  | c :: cs, p :: ps => c = p ∧ listStartsWith cs ps

/-- ASCII lower-casing, as `String.prototype.toLowerCase` acts on the
ASCII identifiers this code compares. -/
def jsToLower (s : String) : String := ⟨s.data.map Char.toLower⟩

/-! ## `normalizeProjectId` (src/index.ts) -/

/-- One character of the project-path regex class
`[a-zA-Z0-9_.一-鿿-]`. -/
def isPathSegChar (c : Char) : Bool :=
  (65 ≤ c.toNat ∧ c.toNat ≤ 90) ∨ (97 ≤ c.toNat ∧ c.toNat ≤ 122) ∨
  (48 ≤ c.toNat ∧ c.toNat ≤ 57) ∨ c.toNat = 95 ∨ c.toNat = 46 ∨
  (19968 ≤ c.toNat ∧ c.toNat ≤ 40959) ∨ c.toNat = 45

/-- The test of `/^[seg]+\/[seg]+(?:\/[seg]+)*$/`: two or more segments,
each a non-empty run of path-segment characters. -/
def pathFormatTest (l : List Char) : Bool :=
  let parts := splitChar '/' l
  2 ≤ parts.length ∧ parts.all fun p => p ≠ [] ∧ p.all isPathSegChar

/-- The regex `/^[\s]*$/` (matches the empty string as well). -/
def allJsWhitespace (l : List Char) : Bool := l.all isJsWhitespace

/-- `normalizeProjectId` (src/index.ts:2592): numeric IDs pass through,
`%`-containing input is assumed pre-encoded, everything else non-empty is
percent-encoded once; `none` is the `null` return (invalid format). -/
def normalizeProjectId (projectId : String) : Option String :=
  if projectId = "" then none
  else
    let trimmedId := jsTrimList projectId.data
    if trimmedId ≠ [] ∧ trimmedId.all isDigitChar then some ⟨trimmedId⟩
    else if trimmedId.contains '%' then some ⟨trimmedId⟩
    else if pathFormatTest trimmedId then some ⟨encodeURIComponentList trimmedId⟩
    else if trimmedId.contains '/' ∧ 2 ≤ (splitChar '/' trimmedId).length ∧
        (splitChar '/' trimmedId).all (fun p => p.length > 0 ∧ ¬ allJsWhitespace p) then
      some ⟨encodeURIComponentList trimmedId⟩
    else if trimmedId.length > 0 ∧ ¬ allJsWhitespace trimmedId then
      some ⟨encodeURIComponentList trimmedId⟩
    else none

/-! ## `generateMRTitle` (src/index.ts:1641) -/

/-- The regex `\w` class (ASCII word characters). -/
def isWordChar (c : Char) : Bool :=
  (65 ≤ c.toNat ∧ c.toNat ≤ 90) ∨ (97 ≤ c.toNat ∧ c.toNat ≤ 122) ∨
  (48 ≤ c.toNat ∧ c.toNat ≤ 57) ∨ c.toNat = 95

/-- `.replace(/[-_]/g, ' ')`. -/
def dashUnderscoreToSpace (l : List Char) : List Char :=
  l.map fun c => if c = '-' ∨ c = '_' then ' ' else c

/-- `.replace(/\b\w/g, l => l.toUpperCase())`: upper-case every word
character at a word boundary; `prevIsWord` says whether the previous
character was a word character. -/
def upperAtBoundaries (prevIsWord : Bool) : List Char → List Char
  | [] => []
  | c :: rest =>
    (if isWordChar c ∧ ¬ prevIsWord then c.toUpper else c) :: upperAtBoundaries (isWordChar c) rest

/-- The generic branch of `generateMRTitle`: kebab/snake case to a
spaced title-cased string under a `feat: ` tag. -/
def featTitle (l : List Char) : String :=
  "feat: " ++ (⟨upperAtBoundaries false (dashUnderscoreToSpace l)⟩ : String)

/-- `generateMRTitle` (src/index.ts:1641).  `title.replace(p, '')` under a
`startsWith(p)` guard removes exactly the leading prefix, hence the
character-count drop. -/
def generateMRTitle (sourceBranch : String) : String :=
  if listStartsWith sourceBranch.data "feature/".data then
    featTitle (sourceBranch.data.drop 8)
  else if listStartsWith sourceBranch.data "feat/".data then
    featTitle (sourceBranch.data.drop 5)
  else if listStartsWith sourceBranch.data "bugfix/".data then
    "fix: " ++ (⟨sourceBranch.data.drop 7⟩ : String)
  else if listStartsWith sourceBranch.data "hotfix/".data then
    "fix: " ++ (⟨sourceBranch.data.drop 7⟩ : String)
  else if listStartsWith sourceBranch.data "docs/".data then
    "docs: " ++ (⟨sourceBranch.data.drop 5⟩ : String)
  else if listStartsWith sourceBranch.data "refactor/".data then
    "refactor: " ++ (⟨sourceBranch.data.drop 9⟩ : String)
  else featTitle sourceBranch.data

/-! ## URL host extraction (`new URL(u).host`)

Modelled for the `http(s)` URLs this repository constructs
(`https://hostname` from `parseGitlabRemoteUrl`, and the configured API base
URL): scheme stripped, authority cut at the first `/`, `?` or `#`,
lower-cased.  Other shapes are modelled as a parse failure (`none`, the
`TypeError` throw of the `URL` constructor). -/

def hostOfRest (r : List Char) : Option String :=
  let h := r.takeWhile fun c => c ≠ '/' ∧ c ≠ '?' ∧ c ≠ '#'
  if h = [] then none else some ⟨h.map Char.toLower⟩

def urlHost (s : String) : Option String :=
  if listStartsWith s.data "https://".data then hostOfRest (s.data.drop 8)
  else if listStartsWith s.data "http://".data then hostOfRest (s.data.drop 7)
  else none

/-! ## Resolver data model (src/index.ts:49–81) -/

inductive ProjectIdResolutionSource where
  | input
  | git_remote
  | search
deriving DecidableEq, Repr

/-- The subset of a GitLab project payload the code reads back
(`verifyProjectCandidate` copies exactly these fields into the attempt
record); the full `response.data` is modelled by this subset. -/
structure ProjectDataSubset where
  id : Nat
  name : String
  path_with_namespace : String
  web_url : String
  visibility : String
deriving DecidableEq, Repr

/-- `ProjectIdCandidate` (src/index.ts:51); the free-form diagnostic
`metadata` field is not modelled. -/
structure ProjectIdCandidate where
  rawProjectId : String
  normalizedProjectId : String
  source : ProjectIdResolutionSource
deriving DecidableEq, Repr

/-- `ProjectAttemptRecord` (src/index.ts:58). -/
structure ProjectAttemptRecord where
  candidate : ProjectIdCandidate
  success : Bool
  status : Option Nat := none
  errorMessage : Option String := none
  projectData : Option ProjectDataSubset := none
deriving DecidableEq, Repr

inductive ResolutionReason where
  | invalid_format
  | not_found
  | not_detected
deriving DecidableEq, Repr

/-- `ProjectResolutionResult` (src/index.ts:72). -/
structure ProjectResolutionResult where
  success : Bool
  rawProjectId : Option String := none
  normalizedProjectId : Option String := none
  source : Option ProjectIdResolutionSource := none
  projectData : Option ProjectDataSubset := none
  attempts : List ProjectAttemptRecord
  providedProjectId : Option String := none
  reason : Option ResolutionReason := none
deriving DecidableEq, Repr

/-- A project entry of the search endpoint's response
(`projects?search=...&simple=true`), with the fields the ranking reads. -/
structure SearchProject where
  id : Nat
  name : String
  path : String
  path_with_namespace : String
deriving DecidableEq, Repr

/-- `ProjectInfo` as produced by `executeGitCommand('get_project_info')`
(src/index.ts:1805): the fields `getProjectCandidateFromGit` consumes. -/
structure GitProjectInfo where
  isGitlabProject : Bool
  projectId : Option String := none
  projectPath : Option String := none
  gitlabUrl : Option String := none
deriving DecidableEq, Repr

/-- The error object thrown out of `ApiClient.request`: `handleApiError`
(src/api-client.ts:111) builds a plain `Error` carrying `.status` but NOT
the `isAxiosError` marker and NOT a `.response` object, which is what
`verifyProjectCandidate`'s `isAxiosError(error)` test later inspects. -/
structure ThrownError where
  isAxiosError : Bool
  responseStatus : Option Nat := none
  responseMessage : Option String := none
  status : Option Nat := none
  message : String
deriving DecidableEq, Repr

/-- The axios-level outcome of one HTTP request: `ok` is a resolved 2xx
response, `err` an `AxiosError` with the response's status (or none for a
network/timeout failure), statusText and body message. -/
inductive AxiosOutcome (α : Type) where
  | ok (status : Nat) (data : α)
  | err (status : Option Nat) (statusText : String) (dataMessage : String)
deriving DecidableEq, Repr

/-- One wire call of a run; `fallbackGen` is a ghost marker for an
invocation of `getFallbackProjectCandidates`. -/
inductive ApiCall where
  | verify (normalizedId : String)
  | searchCall (term : String)
  | post (endpoint : String)
  | fallbackGen
deriving DecidableEq, Repr

/-- What a merge-request creation POST answers with (curated subset). -/
structure MergeRequestData where
  id : Nat
  web_url : String
  title : String
  state : String
  source_branch : String
  target_branch : String
  author : String
deriving DecidableEq, Repr

/-- The request body `createMergeRequest` builds: optional fields are
absent (`none`) unless actually provided, `remove_source_branch`/`squash`
only present when `true`. -/
structure MRRequestData where
  source_branch : String
  target_branch : String
  title : String
  description : Option String := none
  assignee_id : Option Nat := none
  reviewer_ids : Option (List Nat) := none
  remove_source_branch : Option Bool := none
  squash : Option Bool := none
deriving DecidableEq, Repr

/-- The world a resolution runs against: the configured API base URL, the
deterministic responses of the two GitLab endpoints the resolver uses, the
outcome of git-remote inspection (`none` = `executeGitCommand` threw), and
the response to the MR-creation POST. -/
structure ResolveEnv where
  apiBaseUrl : Option String
  projects : String → AxiosOutcome ProjectDataSubset
  searchProjects : String → AxiosOutcome (List SearchProject)
  gitInfo : Option GitProjectInfo
  postMergeRequest : String → MRRequestData → AxiosOutcome MergeRequestData

/-- Errors that propagate (are thrown) out of a resolution. -/
inductive ResolveErr where
  | thrown (e : ThrownError)
  | uriError
deriving DecidableEq, Repr

/-! ## The API client boundary (src/api-client.ts)

`makeApiRequest` = `ApiClient.requestWithRateLimit` = `request`, which
catches every `AxiosError` and rethrows `handleApiError(error)`.  Retries
(`executeWithRetry`) re-run the same deterministic outcome and the
rate-limit branch of `requestWithRateLimit` requires `isAxiosError` on the
already-transformed error, so neither changes the outcome of a run. -/

/-- `handleApiError` (src/api-client.ts:111): a plain `Error` with
`.status`/`.statusText`/`.data` copied on, but no `isAxiosError` marker. -/
def handleApiError (status : Option Nat) (statusText : String) (dataMessage : String) :
    ThrownError :=
  let base := "API request failed: " ++
    (match status with | some s => toString s | none => "undefined") ++ " " ++ statusText
  { isAxiosError := false
    status := status
    message := if dataMessage ≠ "" then base ++ " - " ++ dataMessage else base }

/-- `makeApiRequest` on the `projects/{id}` endpoint. -/
def makeProjectsRequest (env : ResolveEnv) (normalizedId : String) :
    Except ThrownError (Nat × ProjectDataSubset) :=
  match env.projects normalizedId with
  | .ok st d => .ok (st, d)
  | .err st text msg => .error (handleApiError st text msg)

/-! ## `verifyProjectCandidate` (src/index.ts:2307) -/

inductive VerifyOutcome where
  | verified (status : Nat) (data : ProjectDataSubset)
  | notVerified (status : Option Nat)
  | fatal (e : ThrownError)
deriving DecidableEq, Repr

/-- `verifyProjectCandidate`: issues `GET projects/{id}`, pushes one
attempt record, and rethrows (`fatal`) on a truthy non-404 status — a
status it can only see when the error carries the `isAxiosError` marker. -/
def verifyProjectCandidate (env : ResolveEnv) (c : ProjectIdCandidate) :
    ProjectAttemptRecord × VerifyOutcome :=
  match makeProjectsRequest env c.normalizedProjectId with
  | .ok (st, d) =>
    ({ candidate := c, success := true, status := some st, projectData := some d },
     .verified st d)
  | .error e =>
    let status : Option Nat := if e.isAxiosError then e.responseStatus else none
    let errorMessage : String :=
      if e.isAxiosError then (e.responseMessage.getD e.message) else e.message
    let record : ProjectAttemptRecord :=
      { candidate := c, success := false, status := status, errorMessage := some errorMessage }
    match status with
    | some s => if s ≠ 0 ∧ s ≠ 404 then (record, .fatal e) else (record, .notVerified (some s))
    | none => (record, .notVerified none)

/-! ## Candidate producers (src/index.ts:2167–2305) -/

/-- `getApiHost` (src/index.ts:2167): `new URL(config.apiBaseUrl).host`,
`null` on a missing/empty/unparsable base URL. -/
def getApiHost (env : ResolveEnv) : Option String :=
  match env.apiBaseUrl with
  | none => none
  | some u => if u = "" then none else urlHost u

/-- `getProjectCandidateFromGit` (src/index.ts:2178): candidate from the
named remote of the working directory; discarded when the remote host
parses and differs from the configured API host (a host parse error falls
through and keeps the candidate).  The surrounding `try` catches a
`decodeURIComponent` throw and returns `null`. -/
def getProjectCandidateFromGit (env : ResolveEnv) : Option ProjectIdCandidate :=
  match env.gitInfo with
  | none => none
  | some info =>
    if ¬ info.isGitlabProject then none
    else
      match info.projectId with
      | none => none
      | some pid =>
        if pid = "" then none
        else
          let apiHost := getApiHost env
          let discard : Bool :=
            match apiHost, info.gitlabUrl with
            | some ah, some gu =>
              if gu = "" then false
              else
                match urlHost gu with
                | some remoteHost => remoteHost ≠ ah
                | none => false
            | _, _ => false
          if discard then none
          else
            let raw? : Option String :=
              match info.projectPath with
              | some pp => some pp
              | none => decodeURIComponent pid
            match raw? with
            | none => none
            | some raw =>
              some { rawProjectId := raw, normalizedProjectId := pid, source := .git_remote }

/-- The candidate `getProjectCandidateFromSearch` builds from the ranked
search hit. -/
def mkSearchCandidate (cp : SearchProject) : ProjectIdCandidate :=
  { rawProjectId := cp.path_with_namespace
    normalizedProjectId := encodeURIComponent cp.path_with_namespace
    source := .search }

/-- `getProjectCandidateFromSearch` (src/index.ts:2224): last path segment
of the decoded identifier as search term; ranking exact
`path_with_namespace` > exact `path` > exact `name` > first result.  The
`decodeURIComponent` call sits OUTSIDE the `try`, so its throw propagates;
an API error is caught and yields `null`. -/
def getProjectCandidateFromSearch (env : ResolveEnv) (projectIdentifier : Option String) :
    Except ResolveErr (Option ProjectIdCandidate × List ApiCall) :=
  match projectIdentifier with
  | none => .ok (none, [])
  | some pid =>
    let trimmed := jsTrim pid
    if trimmed = "" then .ok (none, [])
    else
      match decodeURIComponent trimmed with
      | none => .error .uriError
      | some decoded =>
        let segments := (splitChar '/' decoded.data).filter (· ≠ [])
        let searchTerm : List Char := (segments.getLast?).getD []
        if searchTerm = [] then .ok (none, [])
        else
          let term : String := ⟨searchTerm⟩
          match env.searchProjects term with
          | .err _ _ _ => .ok (none, [.searchCall term])
          | .ok _ projects =>
            if projects.isEmpty then .ok (none, [.searchCall term])
            else
              let providedLower := jsToLower decoded
              let searchLower := jsToLower term
              let exactMatch := projects.find? fun p =>
                jsToLower p.path_with_namespace = providedLower
              let pathMatch := projects.find? fun p => jsToLower p.path = searchLower
              let nameMatch := projects.find? fun p => jsToLower p.name = searchLower
              let candidateProject :=
                match exactMatch with
                | some p => some p
                | none =>
                  match pathMatch with
                  | some p => some p
                  | none =>
                    match nameMatch with
                    | some p => some p
                    | none => projects.head?
              match candidateProject with
              | none => .ok (none, [.searchCall term])
              | some cp => .ok (some (mkSearchCandidate cp), [.searchCall term])

/-- `getFallbackProjectCandidates` (src/index.ts:2371): the git-remote
candidate (unless it equals the excluded normalized id) followed by the
search candidate (same exclusion, plus mutual de-duplication). -/
def getFallbackProjectCandidates (env : ResolveEnv) (allowSearch : Bool)
    (providedProjectId : Option String) (excludeNormalized : Option String) :
    Except ResolveErr (List ProjectIdCandidate × List ApiCall) :=
  let gitCandidate := getProjectCandidateFromGit env
  let candidates : List ProjectIdCandidate :=
    match gitCandidate with
    | some g => if excludeNormalized ≠ some g.normalizedProjectId then [g] else []
    | none => []
  let searchIdentifier : Option String :=
    match providedProjectId with
    | some p => some p
    | none => gitCandidate.map (·.rawProjectId)
  if allowSearch ∧ strTruthy searchIdentifier then
    match getProjectCandidateFromSearch env searchIdentifier with
    | .error e => .error e
    | .ok (sc, calls) =>
      match sc with
      | some s =>
        if excludeNormalized ≠ some s.normalizedProjectId ∧
            ¬ candidates.any (·.normalizedProjectId = s.normalizedProjectId) then
          .ok (candidates ++ [s], calls)
        else .ok (candidates, calls)
      | none => .ok (candidates, calls)
  else .ok (candidates, [])

/-! ## `resolveGitlabProjectId` (src/index.ts:2412)

The worklist loop is written as two structurally recursive functions, one
per value of the `fallbackCandidatesQueued` flag: `resolveLoopUnqueued`
(flag still `false`; a 404 may generate the fallback tier and, when that
tier is non-empty, hand over to the queued phase) and `resolveLoopQueued`
(flag `true`; candidates are only consumed). -/

/-- `enqueueCandidate` (src/index.ts:2427): skip empty or already-seen
normalized ids, else push. -/
def enqueueOne (state : List String × List ProjectIdCandidate) (c : ProjectIdCandidate) :
    List String × List ProjectIdCandidate :=
  if c.normalizedProjectId = "" ∨ state.1.contains c.normalizedProjectId then state
  else (state.1 ++ [c.normalizedProjectId], state.2 ++ [c])

/-- The success result (src/index.ts:2470–2479). -/
def mkSuccessResult (c : ProjectIdCandidate) (d : ProjectDataSubset)
    (attempts : List ProjectAttemptRecord) (provided : Option String) :
    ProjectResolutionResult :=
  { success := true
    rawProjectId := some c.rawProjectId
    normalizedProjectId := some c.normalizedProjectId
    source := some c.source
    projectData := some d
    attempts := attempts
    providedProjectId := provided }

/-- The failure result with its reason assignment (src/index.ts:2498–2512);
none of the three reasons applies when a non-empty identifier normalized
fine but every attempt failed without a recorded 404 status. -/
def mkFailureResult (provided : Option String) (normalizedProvided : Option String)
    (attempts : List ProjectAttemptRecord) : ProjectResolutionResult :=
  let reason : Option ResolutionReason :=
    if strTruthy provided ∧ normalizedProvided = none then some .invalid_format
    else if attempts.any (fun a => a.status = some 404) then some .not_found
    else if attempts.length = 0 then some .not_detected
    else none
  { success := false
    attempts := attempts
    providedProjectId := provided
    reason := reason }

/-- The candidate loop once `fallbackCandidatesQueued` is `true`. -/
def resolveLoopQueued (env : ResolveEnv) (provided normalizedProvided : Option String) :
    List ProjectIdCandidate → List ProjectAttemptRecord → List ApiCall →
    Except ResolveErr (ProjectResolutionResult × List ApiCall)
  | [], attempts, log => .ok (mkFailureResult provided normalizedProvided attempts, log)
  | c :: rest, attempts, log =>
    let (record, outcome) := verifyProjectCandidate env c
    let attempts' := attempts ++ [record]
    let log' := log ++ [.verify c.normalizedProjectId]
    match outcome with
    | .verified _ d => .ok (mkSuccessResult c d attempts' provided, log')
    | .fatal e => .error (.thrown e)
    | .notVerified _ => resolveLoopQueued env provided normalizedProvided rest attempts' log'

/-- The candidate loop while `fallbackCandidatesQueued` is `false`: a 404
generates the fallback tier once (src/index.ts:2482–2495); the flag is only
raised when that tier is non-empty. -/
def resolveLoopUnqueued (env : ResolveEnv) (allowSearch : Bool)
    (provided normalizedProvided : Option String) :
    List ProjectIdCandidate → List String → List ProjectAttemptRecord → List ApiCall →
    Except ResolveErr (ProjectResolutionResult × List ApiCall)
  | [], _, attempts, log => .ok (mkFailureResult provided normalizedProvided attempts, log)
  | c :: rest, seen, attempts, log =>
    let (record, outcome) := verifyProjectCandidate env c
    let attempts' := attempts ++ [record]
    let log' := log ++ [.verify c.normalizedProjectId]
    match outcome with
    | .verified _ d => .ok (mkSuccessResult c d attempts' provided, log')
    | .fatal e => .error (.thrown e)
    | .notVerified st =>
      if st = some 404 then
        match getFallbackProjectCandidates env allowSearch provided
            (some c.normalizedProjectId) with
        | .error e => .error e
        | .ok (fallbackCandidates, calls) =>
          let log'' := log' ++ [.fallbackGen] ++ calls
          if fallbackCandidates.isEmpty then
            resolveLoopUnqueued env allowSearch provided normalizedProvided rest seen
              attempts' log''
          else
            let state := fallbackCandidates.foldl enqueueOne (seen, rest)
            resolveLoopQueued env provided normalizedProvided state.2 attempts' log''
      else resolveLoopUnqueued env allowSearch provided normalizedProvided rest seen
        attempts' log'

/-- `normalizedProvidedProjectId` (src/index.ts:2422): the direct input,
normalized, when the input is truthy. -/
def normalizedProvidedOf (rawProjectIdInput : Option String) : Option String :=
  if strTruthy rawProjectIdInput then normalizeProjectId (rawProjectIdInput.getD "")
  else none

/-- The set-up phase of `resolveGitlabProjectId` (src/index.ts:2417–2461):
normalize the direct input into the first candidate; when the queue is
still empty, generate the fallback tier immediately.  Returns the initial
queue, seen-set, `fallbackCandidatesQueued` flag and call log. -/
def resolveInit (env : ResolveEnv) (allowSearch : Bool) (rawProjectIdInput : Option String) :
    Except ResolveErr (List ProjectIdCandidate × List String × Bool × List ApiCall) :=
  let state0 : List String × List ProjectIdCandidate :=
    match normalizedProvidedOf rawProjectIdInput with
    | some n =>
      enqueueOne ([], [])
        { rawProjectId := rawProjectIdInput.getD "", normalizedProjectId := n, source := .input }
    | none => ([], [])
  if state0.2.isEmpty then
    match getFallbackProjectCandidates env allowSearch rawProjectIdInput none with
    | .error e => .error e
    | .ok (fallbackCandidates, calls) =>
      let state1 := fallbackCandidates.foldl enqueueOne state0
      .ok (state1.2, state1.1, ¬ fallbackCandidates.isEmpty, [.fallbackGen] ++ calls)
  else .ok (state0.2, state0.1, false, [])

/-- `resolveGitlabProjectId` (src/index.ts:2412): run the set-up phase,
then the candidate loop in the phase the flag says. -/
def resolveGitlabProjectId (env : ResolveEnv) (allowSearch : Bool)
    (rawProjectIdInput : Option String) :
    Except ResolveErr (ProjectResolutionResult × List ApiCall) :=
  match resolveInit env allowSearch rawProjectIdInput with
  | .error e => .error e
  | .ok (queue, seen, fallbackQueued, log) =>
    if fallbackQueued then
      resolveLoopQueued env rawProjectIdInput (normalizedProvidedOf rawProjectIdInput) queue [] log
    else
      resolveLoopUnqueued env allowSearch rawProjectIdInput
        (normalizedProvidedOf rawProjectIdInput) queue seen [] log

/-! ## `createMergeRequest` (src/index.ts:1346)

The alias/coercion layer (`getArgumentValue` + `coerceTo*`) is modelled as
the already-extracted typed arguments; `resolutionRan` is a ghost flag
recording whether `resolveGitlabProjectId` was invoked. -/

structure CreateMRArgs where
  projectId : Option String := none
  sourceBranch : Option String := none
  targetBranch : Option String := none
  title : Option String := none
  description : Option String := none
  assigneeId : Option Nat := none
  reviewerIds : Option (List Nat) := none
  deleteSourceBranch : Bool := false
  squash : Bool := false
deriving DecidableEq, Repr

structure CreateMRRun where
  success : Bool
  resolutionRan : Bool
  calls : List ApiCall
  requestData : Option MRRequestData := none
  mergeRequest : Option MergeRequestData := none
deriving DecidableEq, Repr

/-- `createMergeRequest`: `sourceBranchInput?.trim()` then a falsiness
guard (no call of any kind on that path), resolution, request-body
construction (`title || generateMRTitle(...)`, truthiness on
`description`, presence flags for the booleans), then the POST whose
try/catch decides the reported `success`. -/
def createMergeRequest (env : ResolveEnv) (args : CreateMRArgs) :
    Except ResolveErr CreateMRRun :=
  let sourceBranch := jsTrim (args.sourceBranch.getD "")
  if sourceBranch = "" then .ok { success := false, resolutionRan := false, calls := [] }
  else
    match resolveGitlabProjectId env true args.projectId with
    | .error e => .error e
    | .ok (resolution, rlog) =>
      if ¬ resolution.success then
        .ok { success := false, resolutionRan := true, calls := rlog }
      else
        let normalizedProjectId := resolution.normalizedProjectId.getD ""
        let mrTitle :=
          match args.title with
          | some t => if t ≠ "" then t else generateMRTitle sourceBranch
          | none => generateMRTitle sourceBranch
        let requestData : MRRequestData :=
          { source_branch := sourceBranch
            target_branch := args.targetBranch.getD "main"
            title := mrTitle
            description :=
              match args.description with
              | some d => if d ≠ "" then some d else none
              | none => none
            assignee_id := args.assigneeId
            reviewer_ids :=
              match args.reviewerIds with
              | some l => if 0 < l.length then some l else none
              | none => none
            remove_source_branch := if args.deleteSourceBranch then some true else none
            squash := if args.squash then some true else none }
        let endpoint := "projects/" ++ normalizedProjectId ++ "/merge_requests"
        match env.postMergeRequest endpoint requestData with
        | .ok _ mrData =>
          .ok { success := true, resolutionRan := true, calls := rlog ++ [.post endpoint],
                requestData := some requestData, mergeRequest := some mrData }
        | .err _ _ _ =>
          .ok { success := false, resolutionRan := true, calls := rlog ++ [.post endpoint],
                requestData := some requestData }

/-! ## `executeGitCommand` (src/index.ts:1737)

The working-directory protocol: save `process.cwd()`, `chdir` into the
requested directory, run the inspection, and restore the saved directory
in a `finally`.  `process.chdir` throws on a missing directory and leaves
the current directory unchanged.  `getBranchInfo`/`getGitProjectInfo`
swallow their own errors internally, so the inspection bodies are total
functions of the directory they run in. -/

structure GitBranchInfo where
  currentBranch : String
  allBranches : List String
  isGitRepository : Bool
  repositoryRoot : Option String := none
deriving DecidableEq, Repr

inductive GitCmdOutput where
  | branch (info : GitBranchInfo)
  | project (info : GitProjectInfo)
deriving DecidableEq, Repr

/-- The process/filesystem world of a git inspection. -/
structure GitEnv where
  dirExists : String → Bool
  branchInfoAt : String → GitBranchInfo
  projectInfoAt : String → String → GitProjectInfo

/-- The mutable process state: its working directory. -/
structure ProcState where
  cwd : String
deriving DecidableEq, Repr

/-- `process.chdir(dir)`: `none` is the throw (state unchanged by the
caller in that case). -/
def chdirTo (genv : GitEnv) (dir : String) : Option ProcState :=
  if genv.dirExists dir then some { cwd := dir } else none

/-- `executeGitCommand(command, workingDirectory, ...args)` with the
explicit process state threaded through; the second component is the
process state after the call. -/
def executeGitCommand (genv : GitEnv) (command : String) (workingDirectory : String)
    (remoteNameArg : Option String) (st : ProcState) :
    Except String GitCmdOutput × ProcState :=
  let originalCwd := st.cwd
  let step : Except String GitCmdOutput × ProcState :=
    match chdirTo genv workingDirectory with
    | none => (.error "chdir failed", st)
    | some st1 =>
      if command = "get_current_branch" then
        (.ok (.branch (genv.branchInfoAt st1.cwd)), st1)
      else if command = "get_project_info" then
        let remoteName :=
          match remoteNameArg with
          | some r => if r = "" then "origin" else r
          | none => "origin"
        (.ok (.project (genv.projectInfoAt st1.cwd remoteName)), st1)
      else (.error ("Unknown git command: " ++ command), st1)
  match chdirTo genv originalCwd with
  | some st2 => (step.1, st2)
  | none => (.error "chdir failed", step.2)

/-! ## Lemmas: trimming -/

theorem dropWhile_self_of_head {p : Char → Bool} {l : List Char}
    (h : ∀ a t, l = a :: t → p a = false) : l.dropWhile p = l := by
  cases l with
  | nil => rfl
  | cons a t => simp [List.dropWhile, h a t rfl]

theorem dropWhile_dropWhile {p : Char → Bool} (l : List Char) :
    (l.dropWhile p).dropWhile p = l.dropWhile p := by
  induction l with
  | nil => rfl
  | cons a t ih =>
    by_cases hp : p a
    · simp [List.dropWhile, hp, ih]
    · simp [List.dropWhile, hp]

theorem trimStart_trimStart (l : List Char) : trimStartList (trimStartList l) = trimStartList l :=
  dropWhile_dropWhile l

theorem trimEnd_trimEnd (l : List Char) : trimEndList (trimEndList l) = trimEndList l := by
  simp [trimEndList, trimStartList, dropWhile_dropWhile]

theorem trimEnd_prefix (l : List Char) : trimEndList l <+: l := by
  have hsuff : trimStartList l.reverse <:+ l.reverse := List.dropWhile_suffix _
  have h2 := List.reverse_prefix.mpr hsuff
  simpa [trimEndList] using h2

theorem trimStart_of_trimmed_start {l : List Char} (h : trimStartList l = l) :
    trimStartList (trimEndList l) = trimEndList l := by
  unfold trimStartList
  apply dropWhile_self_of_head
  intro a t hat
  obtain ⟨u, hu⟩ := trimEnd_prefix l
  rw [hat] at hu
  rw [← hu] at h
  by_cases hpa : isJsWhitespace a
  · exfalso
    simp only [trimStartList, List.cons_append, List.dropWhile_cons] at h
    rw [if_pos hpa] at h
    have hle := (List.dropWhile_suffix (l := t ++ u) isJsWhitespace).length_le
    rw [h] at hle
    simp at hle
  · simpa using hpa

theorem jsTrim_idem (l : List Char) : jsTrimList (jsTrimList l) = jsTrimList l := by
  unfold jsTrimList
  rw [trimStart_of_trimmed_start (trimStart_trimStart l), trimEnd_trimEnd]

theorem trim_of_all_not_ws {l : List Char} (h : ∀ c ∈ l, isJsWhitespace c = false) :
    jsTrimList l = l := by
  have h1 : trimStartList l = l := by
    unfold trimStartList
    apply dropWhile_self_of_head
    intro a t hat
    exact h a (by rw [hat]; simp)
  have h2 : trimEndList l = l := by
    unfold trimEndList trimStartList
    rw [dropWhile_self_of_head (p := isJsWhitespace), List.reverse_reverse]
    intro a t hat
    apply h a
    have ha : a ∈ l.reverse := by rw [hat]; simp
    simpa using ha
  unfold jsTrimList
  rw [h1, h2]

/-! ## Lemmas: percent-encoding -/

theorem char_toNat_lt (c : Char) : c.toNat < 1114112 := by
  have h := c.valid
  simp only [Char.toNat]
  rcases h with h | ⟨h1, h2⟩
  · have h3 : c.val.toNat < 55296 := by exact_mod_cast h
    omega
  · have h3 : c.val.toNat < 1114112 := by exact_mod_cast h2
    omega

theorem mem_utf8Bytes_lt {c : Char} {b : Nat} (hb : b ∈ utf8Bytes c) : b < 256 := by
  have hn := char_toNat_lt c
  simp only [utf8Bytes] at hb
  split_ifs at hb with h1 h2 h3
  · simp at hb; omega
  · simp at hb; rcases hb with hb | hb <;> omega
  · simp at hb; rcases hb with hb | hb | hb <;> omega
  · simp at hb; rcases hb with hb | hb | hb | hb <;> omega

theorem utf8Bytes_ne_nil (c : Char) : utf8Bytes c ≠ [] := by
  simp only [utf8Bytes]
  split_ifs <;> simp

theorem hexDigitChar_unreserved {n : Nat} (h : n < 16) :
    isUriUnreserved (hexDigitChar n) = true := by
  interval_cases n <;> decide

theorem mem_percentByte_spec {b : Nat} {x : Char} (hb : b < 256) (hx : x ∈ percentByte b) :
    isUriUnreserved x = true ∨ x = '%' := by
  simp only [percentByte, List.mem_cons, List.not_mem_nil, or_false] at hx
  rcases hx with hx | hx | hx
  · right; exact hx
  · left; subst hx; exact hexDigitChar_unreserved (by omega)
  · left; subst hx; exact hexDigitChar_unreserved (by omega)

theorem mem_encodeChar_spec {c x : Char} (hx : x ∈ encodeChar c) :
    isUriUnreserved x = true ∨ x = '%' := by
  by_cases hc : isUriUnreserved c
  · left
    simp only [encodeChar, if_pos hc, List.mem_singleton] at hx
    subst hx; exact hc
  · simp only [encodeChar, if_neg hc, List.mem_flatMap] at hx
    obtain ⟨b, hb, hxb⟩ := hx
    exact mem_percentByte_spec (mem_utf8Bytes_lt hb) hxb

theorem mem_encodeList_spec {l : List Char} {x : Char} (hx : x ∈ encodeURIComponentList l) :
    isUriUnreserved x = true ∨ x = '%' := by
  simp only [encodeURIComponentList, List.mem_flatMap] at hx
  obtain ⟨c, _, hxc⟩ := hx
  exact mem_encodeChar_spec hxc

theorem ws_false_of_unreserved {c : Char} (h : isUriUnreserved c = true) :
    isJsWhitespace c = false := by
  simp only [isUriUnreserved, decide_eq_true_eq] at h
  simp only [isJsWhitespace, decide_eq_false_iff_not]
  omega

theorem encodeList_not_ws {l : List Char} :
    ∀ x ∈ encodeURIComponentList l, isJsWhitespace x = false := by
  intro x hx
  rcases mem_encodeList_spec hx with h | h
  · exact ws_false_of_unreserved h
  · subst h; decide

theorem encodeChar_ne_nil (c : Char) : encodeChar c ≠ [] := by
  by_cases hc : isUriUnreserved c
  · simp [encodeChar, hc]
  · simp only [encodeChar, if_neg hc]
    obtain ⟨b, bs, hb⟩ := List.exists_cons_of_ne_nil (utf8Bytes_ne_nil c)
    rw [hb]
    simp [percentByte]

theorem encodeList_ne_nil {l : List Char} (h : l ≠ []) : encodeURIComponentList l ≠ [] := by
  obtain ⟨c, rest, hc⟩ := List.exists_cons_of_ne_nil h
  subst hc
  simp only [encodeURIComponentList, List.flatMap_cons]
  intro habs
  exact encodeChar_ne_nil c (List.append_eq_nil.mp habs).1

theorem encodeList_eq_self {l : List Char} (h : ∀ c ∈ l, isUriUnreserved c = true) :
    encodeURIComponentList l = l := by
  induction l with
  | nil => rfl
  | cons c rest ih =>
    simp only [encodeURIComponentList, List.flatMap_cons] at *
    rw [encodeChar, if_pos (h c (by simp)), ih fun x hx => h x (by simp [hx])]
    rfl

theorem percent_mem_encodeChar {c : Char} (hc : ¬ isUriUnreserved c) : '%' ∈ encodeChar c := by
  simp only [encodeChar, if_neg hc, List.mem_flatMap]
  obtain ⟨b, bs, hb⟩ := List.exists_cons_of_ne_nil (utf8Bytes_ne_nil c)
  exact ⟨b, by simp [hb], by simp [percentByte]⟩

theorem no_percent_spec {l : List Char} (h : '%' ∉ encodeURIComponentList l) :
    (∀ c ∈ l, isUriUnreserved c = true) ∧ encodeURIComponentList l = l := by
  induction l with
  | nil => exact ⟨by simp, rfl⟩
  | cons c rest ih =>
    simp only [encodeURIComponentList, List.flatMap_cons, List.mem_append] at h
    push_neg at h
    obtain ⟨h1, h2⟩ := h
    have hc : isUriUnreserved c = true := by
      by_contra hcc
      exact h1 (percent_mem_encodeChar (by simpa using hcc))
    obtain ⟨ihall, iheq⟩ := ih h2
    refine ⟨?_, ?_⟩
    · intro x hx
      rcases List.mem_cons.mp hx with hx | hx
      · subst hx; exact hc
      · exact ihall x hx
    · simp only [encodeURIComponentList, List.flatMap_cons] at *
      rw [encodeChar, if_pos hc, iheq]
      rfl

/-! ## Lemmas: `normalizeProjectId` -/

theorem normalize_cases {s r : String} (h : normalizeProjectId s = some r) :
    ∃ t : List Char, jsTrimList s.data = t ∧ t ≠ [] ∧
      ((t.all isDigitChar ∧ r = ⟨t⟩) ∨ (t.contains '%' ∧ r = ⟨t⟩) ∨
       r = ⟨encodeURIComponentList t⟩) := by
  simp only [normalizeProjectId] at h
  split at h
  · exact absurd h (by simp)
  · refine ⟨jsTrimList s.data, rfl, ?_⟩
    split at h
    · next hc => exact ⟨hc.1, Or.inl ⟨hc.2, (Option.some.inj h).symm⟩⟩
    · split at h
      · next hc =>
        refine ⟨?_, Or.inr (Or.inl ⟨hc, (Option.some.inj h).symm⟩)⟩
        intro hnil; rw [hnil] at hc; simp at hc
      · split at h
        · next hc =>
          refine ⟨?_, Or.inr (Or.inr (Option.some.inj h).symm)⟩
          intro hnil; rw [hnil] at hc; simp [pathFormatTest, splitChar] at hc
        · split at h
          · next hc =>
            refine ⟨?_, Or.inr (Or.inr (Option.some.inj h).symm)⟩
            intro hnil; rw [hnil] at hc; simp at hc
          · split at h
            · next hc =>
              refine ⟨?_, Or.inr (Or.inr (Option.some.inj h).symm)⟩
              intro hnil; rw [hnil] at hc; simp at hc
            · exact absurd h (by simp)

theorem trim_nil_of_all_ws {t : List Char} (h : allJsWhitespace t = true) :
    jsTrimList t = [] := by
  have hdrop : t.dropWhile isJsWhitespace = [] := by
    rw [List.dropWhile_eq_nil_iff]
    intro x hx
    exact List.all_eq_true.mp h x hx
  simp [jsTrimList, trimStartList, trimEndList, hdrop]

theorem ws_false_of_digit {c : Char} (h : isDigitChar c = true) : isJsWhitespace c = false := by
  simp only [isDigitChar, decide_eq_true_eq] at h
  simp only [isJsWhitespace, decide_eq_false_iff_not]
  omega

/-- Evaluation of `normalizeProjectId` on a non-empty, already-trimmed
character list: the branch structure collapses to digits / pre-encoded /
encode, because the last three branches all percent-encode and at least
the forward-compatibility fallback always fires. -/
theorem normalize_eval_fixed {t : List Char} (hne : t ≠ []) (htrim : jsTrimList t = t) :
    normalizeProjectId ⟨t⟩ =
      (if t.all isDigitChar then some (⟨t⟩ : String)
       else if t.contains '%' then some ⟨t⟩
       else some ⟨encodeURIComponentList t⟩) := by
  have hmkne : (⟨t⟩ : String) ≠ "" := by simp [String.ext_iff, hne]
  have hnws : ¬ allJsWhitespace t = true := by
    intro hws
    rw [trim_nil_of_all_ws hws] at htrim
    exact hne htrim.symm
  simp only [normalizeProjectId, if_neg hmkne]
  show (if jsTrimList t ≠ [] ∧ (jsTrimList t).all isDigitChar then _ else _) = _
  rw [htrim]
  by_cases hd : t.all isDigitChar
  · rw [if_pos ⟨hne, hd⟩, if_pos hd]
  · rw [if_neg (by simp [hd]), if_neg hd]
    by_cases hp : t.contains '%'
    · rw [if_pos hp, if_pos hp]
    · rw [if_neg hp, if_neg hp]
      by_cases hpath : pathFormatTest t
      · rw [if_pos hpath]
      · rw [if_neg hpath]
        by_cases hslash : t.contains '/' ∧ 2 ≤ (splitChar '/' t).length ∧
            (splitChar '/' t).all (fun p => p.length > 0 ∧ ¬ allJsWhitespace p)
        · rw [if_pos hslash]
        · rw [if_neg hslash, if_pos ⟨List.length_pos.mpr hne, hnws⟩]

theorem normalize_idem {s r : String} (h : normalizeProjectId s = some r) :
    normalizeProjectId r = some r := by
  obtain ⟨t, ht, htne, hcase⟩ := normalize_cases h
  have htt : jsTrimList t = t := by
    conv_lhs => rw [← ht]
    rw [← ht]
    exact jsTrim_idem _
  rcases hcase with ⟨hdig, hr⟩ | ⟨hpct, hr⟩ | hr
  · subst hr
    rw [normalize_eval_fixed htne htt, if_pos hdig]
  · subst hr
    rw [normalize_eval_fixed htne htt]
    by_cases hd : t.all isDigitChar
    · rw [if_pos hd]
    · rw [if_neg hd, if_pos hpct]
  · subst hr
    have hene : encodeURIComponentList t ≠ [] := encodeList_ne_nil htne
    have htre : jsTrimList (encodeURIComponentList t) = encodeURIComponentList t :=
      trim_of_all_not_ws fun x hx => encodeList_not_ws x hx
    rw [normalize_eval_fixed hene htre]
    by_cases hd : (encodeURIComponentList t).all isDigitChar
    · rw [if_pos hd]
    · rw [if_neg hd]
      by_cases hp : (encodeURIComponentList t).contains '%'
      · rw [if_pos hp]
      · rw [if_neg hp]
        have hnp : '%' ∉ encodeURIComponentList t := by
          intro hmem
          exact hp (List.elem_iff.mpr hmem)
        obtain ⟨_, heq⟩ := no_percent_spec hnp
        simp only [heq]

theorem normalize_of_percent {s : String} (hne : s ≠ "") (htrim : jsTrim s = s)
    (hp : s.data.contains '%' = true) : normalizeProjectId s = some s := by
  have hdne : s.data ≠ [] := by
    intro habs
    exact hne (String.ext habs)
  have htrimd : jsTrimList s.data = s.data := by
    have := congrArg String.data htrim
    simpa [jsTrim] using this
  have heval := normalize_eval_fixed (t := s.data) hdne htrimd
  have hnd : ¬ s.data.all isDigitChar = true := by
    intro hall
    have hmem : '%' ∈ s.data := List.elem_iff.mp hp
    have := List.all_eq_true.mp hall '%' hmem
    simp [isDigitChar] at this
  rw [show (⟨s.data⟩ : String) = s from rfl] at heval
  rw [heval, if_neg hnd, if_pos hp]

theorem normalize_of_digits {s : String} (hne : s ≠ "") (hd : s.data.all isDigitChar = true) :
    normalizeProjectId s = some s := by
  have hdne : s.data ≠ [] := fun habs => hne (String.ext habs)
  have htrimd : jsTrimList s.data = s.data :=
    trim_of_all_not_ws fun c hc => ws_false_of_digit (List.all_eq_true.mp hd c hc)
  have heval := normalize_eval_fixed (t := s.data) hdne htrimd
  rw [show (⟨s.data⟩ : String) = s from rfl] at heval
  rw [heval, if_pos hd]

/-! ## Lemmas: the verification step -/

/-- The attempt record a candidate's verification pushes. -/
def attemptOf (env : ResolveEnv) (c : ProjectIdCandidate) : ProjectAttemptRecord :=
  (verifyProjectCandidate env c).1

theorem handleApiError_isAxiosError (st : Option Nat) (tx m : String) :
    (handleApiError st tx m).isAxiosError = false := rfl

theorem verify_ok {env : ResolveEnv} {c : ProjectIdCandidate} {st : Nat}
    {d : ProjectDataSubset} (h : env.projects c.normalizedProjectId = .ok st d) :
    verifyProjectCandidate env c =
      ({ candidate := c, success := true, status := some st, projectData := some d },
       .verified st d) := by
  simp [verifyProjectCandidate, makeProjectsRequest, h]

theorem verify_err {env : ResolveEnv} {c : ProjectIdCandidate} {st : Option Nat}
    {tx m : String} (h : env.projects c.normalizedProjectId = .err st tx m) :
    verifyProjectCandidate env c =
      ({ candidate := c, success := false, status := none,
         errorMessage := some (handleApiError st tx m).message }, .notVerified none) := by
  simp [verifyProjectCandidate, makeProjectsRequest, h, handleApiError_isAxiosError]

theorem attemptOf_candidate (env : ResolveEnv) (c : ProjectIdCandidate) :
    (attemptOf env c).candidate = c := by
  unfold attemptOf
  cases h : env.projects c.normalizedProjectId with
  | ok st d => rw [verify_ok h]
  | err st tx m => rw [verify_err h]

/-! ## Lemmas: the candidate loop -/

theorem loopQueued_run (env : ResolveEnv) (p np : Option String)
    (queue : List ProjectIdCandidate) :
    ∀ (attempts : List ProjectAttemptRecord) (log : List ApiCall),
    ∃ (k : Nat) (r : ProjectResolutionResult) (l : List ApiCall),
      resolveLoopQueued env p np queue attempts log = .ok (r, l) ∧ k ≤ queue.length ∧
      r.attempts = attempts ++ (queue.take k).map (attemptOf env) ∧
      l = log ++ (queue.take k).map (fun c => ApiCall.verify c.normalizedProjectId) ∧
      r.providedProjectId = p ∧
      (r.success = false →
        r = mkFailureResult p np (attempts ++ queue.map (attemptOf env)) ∧ k = queue.length) := by
  induction queue with
  | nil =>
    intro attempts log
    refine ⟨0, mkFailureResult p np attempts, log, rfl, by simp, by simp [mkFailureResult], by
      simp, rfl, fun _ => ⟨by simp, rfl⟩⟩
  | cons c rest ih =>
    intro attempts log
    cases h : env.projects c.normalizedProjectId with
    | ok st d =>
      have ha : attemptOf env c =
          { candidate := c, success := true, status := some st, projectData := some d } := by
        unfold attemptOf; rw [verify_ok h]
      refine ⟨1, mkSuccessResult c d (attempts ++ [attemptOf env c]) p,
        log ++ [.verify c.normalizedProjectId], ?_, by simp, by simp [mkSuccessResult], by
          simp, rfl, ?_⟩
      · simp only [resolveLoopQueued, verify_ok h, ha]
      · intro habs
        simp [mkSuccessResult] at habs
    | err st tx m =>
      have ha : attemptOf env c =
          { candidate := c, success := false, status := none,
            errorMessage := some (handleApiError st tx m).message } := by
        unfold attemptOf; rw [verify_err h]
      obtain ⟨k, r, l, hrun, hk, hatt, hlog, hprov, hfail⟩ :=
        ih (attempts ++ [attemptOf env c]) (log ++ [.verify c.normalizedProjectId])
      refine ⟨k + 1, r, l, ?_, by simp; omega, ?_, ?_, hprov, ?_⟩
      · rw [ha] at hrun
        simp only [resolveLoopQueued, verify_err h]
        exact hrun
      · rw [hatt]
        simp [List.append_assoc]
      · rw [hlog]
        simp [List.append_assoc]
      · intro hs
        obtain ⟨hr, hkk⟩ := hfail hs
        refine ⟨?_, by simp [hkk]⟩
        rw [hr]
        simp [List.append_assoc]

/-- In the flag-`false` phase the 404 branch is unreachable: every failing
verification records `status = none`, because `handleApiError` strips the
`isAxiosError` marker before `verifyProjectCandidate` can read the status.
Hence both phases consume the queue identically. -/
theorem loopUnqueued_run (env : ResolveEnv) (allowSearch : Bool) (p np : Option String)
    (queue : List ProjectIdCandidate) :
    ∀ (seen : List String) (attempts : List ProjectAttemptRecord) (log : List ApiCall),
    ∃ (k : Nat) (r : ProjectResolutionResult) (l : List ApiCall),
      resolveLoopUnqueued env allowSearch p np queue seen attempts log = .ok (r, l) ∧
      k ≤ queue.length ∧
      r.attempts = attempts ++ (queue.take k).map (attemptOf env) ∧
      l = log ++ (queue.take k).map (fun c => ApiCall.verify c.normalizedProjectId) ∧
      r.providedProjectId = p ∧
      (r.success = false →
        r = mkFailureResult p np (attempts ++ queue.map (attemptOf env)) ∧ k = queue.length) := by
  induction queue with
  | nil =>
    intro seen attempts log
    refine ⟨0, mkFailureResult p np attempts, log, rfl, by simp, by simp [mkFailureResult], by
      simp, rfl, fun _ => ⟨by simp, rfl⟩⟩
  | cons c rest ih =>
    intro seen attempts log
    cases h : env.projects c.normalizedProjectId with
    | ok st d =>
      have ha : attemptOf env c =
          { candidate := c, success := true, status := some st, projectData := some d } := by
        unfold attemptOf; rw [verify_ok h]
      refine ⟨1, mkSuccessResult c d (attempts ++ [attemptOf env c]) p,
        log ++ [.verify c.normalizedProjectId], ?_, by simp, by simp [mkSuccessResult], by
          simp, rfl, ?_⟩
      · simp only [resolveLoopUnqueued, verify_ok h, ha]
      · intro habs
        simp [mkSuccessResult] at habs
    | err st tx m =>
      have ha : attemptOf env c =
          { candidate := c, success := false, status := none,
            errorMessage := some (handleApiError st tx m).message } := by
        unfold attemptOf; rw [verify_err h]
      obtain ⟨k, r, l, hrun, hk, hatt, hlog, hprov, hfail⟩ :=
        ih seen (attempts ++ [attemptOf env c]) (log ++ [.verify c.normalizedProjectId])
      refine ⟨k + 1, r, l, ?_, by simp; omega, ?_, ?_, hprov, ?_⟩
      · rw [ha] at hrun
        simp only [resolveLoopUnqueued, verify_err h]
        rw [if_neg (by simp : ¬ (none : Option Nat) = some 404)]
        exact hrun
      · rw [hatt]
        simp [List.append_assoc]
      · rw [hlog]
        simp [List.append_assoc]
      · intro hs
        obtain ⟨hr, hkk⟩ := hfail hs
        refine ⟨?_, by simp [hkk]⟩
        rw [hr]
        simp [List.append_assoc]

/-! ## Lemmas: candidate producers and the set-up phase -/

theorem searchCand_spec {env : ResolveEnv} {pid : Option String}
    {sc : Option ProjectIdCandidate} {calls : List ApiCall}
    (h : getProjectCandidateFromSearch env pid = .ok (sc, calls)) :
    (∀ x ∈ calls, ∃ t, x = ApiCall.searchCall t) ∧
    (∀ c, sc = some c → c.source = .search) := by
  unfold getProjectCandidateFromSearch at h
  cases pid with
  | none =>
    simp only [Except.ok.injEq, Prod.mk.injEq] at h
    obtain ⟨h1, h2⟩ := h
    subst h1; subst h2
    exact ⟨by simp, by simp⟩
  | some p =>
    dsimp only [] at h
    split at h
    · simp only [Except.ok.injEq, Prod.mk.injEq] at h
      obtain ⟨h1, h2⟩ := h; subst h1; subst h2
      exact ⟨by simp, by simp⟩
    · split at h
      · exact absurd h (by simp)
      · split at h
        · simp only [Except.ok.injEq, Prod.mk.injEq] at h
          obtain ⟨h1, h2⟩ := h; subst h1; subst h2
          exact ⟨by simp, by simp⟩
        · split at h
          · simp only [Except.ok.injEq, Prod.mk.injEq] at h
            obtain ⟨h1, h2⟩ := h; subst h1; subst h2
            exact ⟨by simp, by simp⟩
          · split at h
            · simp only [Except.ok.injEq, Prod.mk.injEq] at h
              obtain ⟨h1, h2⟩ := h; subst h1; subst h2
              exact ⟨by simp, by simp⟩
            · split at h
              · simp only [Except.ok.injEq, Prod.mk.injEq] at h
                obtain ⟨h1, h2⟩ := h; subst h1; subst h2
                exact ⟨by simp, by simp⟩
              · simp only [Except.ok.injEq, Prod.mk.injEq] at h
                obtain ⟨h1, h2⟩ := h; subst h1; subst h2
                refine ⟨by simp, ?_⟩
                intro c hc
                obtain rfl := Option.some.inj hc
                rfl

/-- The git tier of `getFallbackProjectCandidates` has at most one entry,
and every entry is the git-remote candidate itself. -/
theorem gitTier_spec (env : ResolveEnv) (ex : Option String) :
    (match getProjectCandidateFromGit env with
     | some g => if ex ≠ some g.normalizedProjectId then [g] else []
     | none => ([] : List ProjectIdCandidate)).length ≤ 1 ∧
    ∀ c ∈ (match getProjectCandidateFromGit env with
     | some g => if ex ≠ some g.normalizedProjectId then [g] else []
     | none => ([] : List ProjectIdCandidate)), getProjectCandidateFromGit env = some c := by
  cases hg : getProjectCandidateFromGit env with
  | none => simp
  | some g =>
    by_cases hex : ex ≠ some g.normalizedProjectId
    · simp only [if_pos hex]
      exact ⟨by simp, by simp⟩
    · simp only [if_neg hex]
      exact ⟨by simp, by simp⟩

theorem fallback_parts {env : ResolveEnv} {aS : Bool} {p ex : Option String}
    {cands : List ProjectIdCandidate} {calls : List ApiCall}
    (h : getFallbackProjectCandidates env aS p ex = .ok (cands, calls)) :
    ∃ gpart spart : List ProjectIdCandidate,
      cands = gpart ++ spart ∧ gpart.length ≤ 1 ∧ spart.length ≤ 1 ∧
      (∀ c ∈ gpart, getProjectCandidateFromGit env = some c) ∧
      (∀ c ∈ spart, c.source = .search) ∧
      (∀ x ∈ calls, ∃ t, x = ApiCall.searchCall t) := by
  unfold getFallbackProjectCandidates at h
  dsimp only [] at h
  obtain ⟨hClen, hCmem⟩ := gitTier_spec env ex
  generalize hid : (match p with
    | some q => some q
    | none => Option.map (fun c : ProjectIdCandidate => c.rawProjectId)
        (getProjectCandidateFromGit env)) = si at h
  split at h
  · split at h
    · exact absurd h (by simp)
    · rename_i sc scalls heq
      obtain ⟨hcallspec, hsrcspec⟩ := searchCand_spec heq
      split at h
      · rename_i s
        split at h
        · simp only [Except.ok.injEq, Prod.mk.injEq] at h
          obtain ⟨h1, h2⟩ := h; subst h1; subst h2
          refine ⟨_, [s], rfl, hClen, by simp, hCmem, ?_, hcallspec⟩
          intro c hc
          rw [List.mem_singleton.mp hc]
          exact hsrcspec s rfl
        · simp only [Except.ok.injEq, Prod.mk.injEq] at h
          obtain ⟨h1, h2⟩ := h; subst h1; subst h2
          exact ⟨_, [], by simp, hClen, by simp, hCmem, by simp, hcallspec⟩
      · simp only [Except.ok.injEq, Prod.mk.injEq] at h
        obtain ⟨h1, h2⟩ := h; subst h1; subst h2
        exact ⟨_, [], by simp, hClen, by simp, hCmem, by simp, hcallspec⟩
  · simp only [Except.ok.injEq, Prod.mk.injEq] at h
    obtain ⟨h1, h2⟩ := h; subst h1; subst h2
    exact ⟨_, [], by simp, hClen, by simp, hCmem, by simp, by simp⟩

theorem enqueueOne_skip {seen : List String} {queue : List ProjectIdCandidate}
    {c : ProjectIdCandidate}
    (hc : c.normalizedProjectId = "" ∨ seen.contains c.normalizedProjectId = true) :
    enqueueOne (seen, queue) c = (seen, queue) := by
  unfold enqueueOne
  exact if_pos hc

theorem enqueueOne_push {seen : List String} {queue : List ProjectIdCandidate}
    {c : ProjectIdCandidate}
    (hc : ¬(c.normalizedProjectId = "" ∨ seen.contains c.normalizedProjectId = true)) :
    enqueueOne (seen, queue) c = (seen ++ [c.normalizedProjectId], queue ++ [c]) := by
  unfold enqueueOne
  exact if_neg hc

theorem foldl_enqueue_append (cands : List ProjectIdCandidate) :
    ∀ (seen : List String) (queue : List ProjectIdCandidate),
    ∃ extra, (cands.foldl enqueueOne (seen, queue)).2 = queue ++ extra ∧
      extra.Sublist cands := by
  induction cands with
  | nil => exact fun seen queue => ⟨[], by simp, by simp⟩
  | cons c rest ih =>
    intro seen queue
    by_cases hc : c.normalizedProjectId = "" ∨ seen.contains c.normalizedProjectId = true
    · rw [List.foldl_cons, enqueueOne_skip hc]
      obtain ⟨extra, he, hsub⟩ := ih seen queue
      exact ⟨extra, he, hsub.cons c⟩
    · rw [List.foldl_cons, enqueueOne_push hc]
      obtain ⟨extra, he, hsub⟩ := ih (seen ++ [c.normalizedProjectId]) (queue ++ [c])
      exact ⟨c :: extra, by simp [he], hsub.cons₂ c⟩

theorem foldl_enqueue_nodup (cands : List ProjectIdCandidate) :
    ∀ (seen : List String) (queue : List ProjectIdCandidate),
    (queue.map (·.normalizedProjectId)).Nodup →
    (∀ n ∈ queue.map (·.normalizedProjectId), n ∈ seen) →
    ((cands.foldl enqueueOne (seen, queue)).2.map (·.normalizedProjectId)).Nodup ∧
    (∀ n ∈ (cands.foldl enqueueOne (seen, queue)).2.map (·.normalizedProjectId),
      n ∈ (cands.foldl enqueueOne (seen, queue)).1) := by
  induction cands with
  | nil => exact fun seen queue h1 h2 => ⟨h1, h2⟩
  | cons c rest ih =>
    intro seen queue h1 h2
    by_cases hc : c.normalizedProjectId = "" ∨ seen.contains c.normalizedProjectId = true
    · rw [List.foldl_cons, enqueueOne_skip hc]
      exact ih seen queue h1 h2
    · push_neg at hc
      obtain ⟨hemp, hseen⟩ := hc
      rw [List.foldl_cons, enqueueOne_push (by push_neg; exact ⟨hemp, hseen⟩)]
      apply ih
      · rw [List.map_append]
        simp only [List.map_cons, List.map_nil]
        apply List.Nodup.append h1 (by simp)
        intro n hn hn2
        rw [List.mem_singleton.mp hn2] at hn
        exact hseen (List.elem_iff.mpr (h2 _ hn))
      · intro n hn
        rw [List.map_append] at hn
        rcases List.mem_append.mp hn with hn | hn
        · exact List.mem_append_left _ (h2 n hn)
        · simp only [List.map_cons, List.map_nil, List.mem_singleton] at hn
          subst hn
          simp

theorem normalize_some_ne_empty {s r : String} (h : normalizeProjectId s = some r) :
    r ≠ "" := by
  obtain ⟨t, _, htne, hcase⟩ := normalize_cases h
  rcases hcase with ⟨_, hr⟩ | ⟨_, hr⟩ | hr <;> subst hr <;>
    simp [String.ext_iff]
  · exact htne
  · exact htne
  · exact encodeList_ne_nil htne

/-- What the set-up phase can produce: either the one `input` candidate
(queue of length one, empty log), or a de-duplicated selection of the
fallback tier with the ghost `fallbackGen` marker in front of the search
calls. -/
theorem resolveInit_spec {env : ResolveEnv} {aS : Bool} {input : Option String}
    {queue : List ProjectIdCandidate} {seen : List String} {flag : Bool}
    {log0 : List ApiCall}
    (h : resolveInit env aS input = .ok (queue, seen, flag, log0)) :
    (queue.map (·.normalizedProjectId)).Nodup ∧ queue.length ≤ 2 ∧
    log0.count ApiCall.fallbackGen ≤ 1 ∧
    ((∃ n, normalizedProvidedOf input = some n ∧
        queue = [{ rawProjectId := input.getD "", normalizedProjectId := n,
                   source := ProjectIdResolutionSource.input }] ∧ log0 = []) ∨
     (∃ cands calls, getFallbackProjectCandidates env aS input none = .ok (cands, calls) ∧
        queue.Sublist cands ∧ log0 = ApiCall.fallbackGen :: calls ∧
        (∀ x ∈ calls, ∃ t, x = ApiCall.searchCall t))) := by
  unfold resolveInit at h
  cases hn : normalizedProvidedOf input with
  | some n =>
    rw [hn] at h
    dsimp only [] at h
    have hne : n ≠ "" := by
      have := hn
      unfold normalizedProvidedOf at this
      split at this
      · exact normalize_some_ne_empty this
      · exact absurd this (by simp)
    rw [enqueueOne_push (by
      push_neg
      exact ⟨hne, by simp⟩)] at h
    simp only [List.nil_append, List.isEmpty_cons, if_neg] at h
    rw [if_neg (by simp)] at h
    simp only [Except.ok.injEq, Prod.mk.injEq] at h
    obtain ⟨h1, h2, h3, h4⟩ := h
    subst h1; subst h4
    refine ⟨by simp, by simp, by simp, Or.inl ⟨n, rfl, rfl, rfl⟩⟩
  | none =>
    rw [hn] at h
    dsimp only [] at h
    rw [if_pos (by simp)] at h
    cases hf : getFallbackProjectCandidates env aS input none with
    | error e => rw [hf] at h; exact absurd h (by simp)
    | ok pr =>
      obtain ⟨cands, calls⟩ := pr
      rw [hf] at h
      simp only [Except.ok.injEq, Prod.mk.injEq] at h
      obtain ⟨h1, h2, h3, h4⟩ := h
      subst h1; subst h4
      obtain ⟨extra, hex, hsub⟩ := foldl_enqueue_append cands [] []
      obtain ⟨hnodup, _⟩ := foldl_enqueue_nodup cands [] [] (by simp) (by simp)
      obtain ⟨gpart, spart, hparts, hglen, hslen, _, _, hcallspec⟩ := fallback_parts hf
      refine ⟨hnodup, ?_, ?_, Or.inr ⟨cands, calls, rfl, by rw [hex, List.nil_append]; exact
        hsub, by simp, hcallspec⟩⟩
      · rw [hex, List.nil_append]
        calc extra.length ≤ cands.length := hsub.length_le
        _ = gpart.length + spart.length := by rw [hparts, List.length_append]
        _ ≤ 2 := by omega
      · have hz : calls.count ApiCall.fallbackGen = 0 := by
          rw [List.count_eq_zero]
          intro hmem
          obtain ⟨t, ht⟩ := hcallspec _ hmem
          simp at ht
        simp [List.singleton_append, List.count_cons, hz]

/-- Closed form of a whole resolution run that returns (rather than
throws): some prefix of the initial queue is verified, one attempt and one
`projects/{id}` request per consumed candidate, and a failure is exactly
`mkFailureResult` over the whole queue's records. -/
theorem resolve_run {env : ResolveEnv} {aS : Bool} {input : Option String}
    {queue : List ProjectIdCandidate} {seen : List String} {flag : Bool} {log0 : List ApiCall}
    (h : resolveInit env aS input = .ok (queue, seen, flag, log0)) :
    ∃ (k : Nat) (r : ProjectResolutionResult) (l : List ApiCall),
      resolveGitlabProjectId env aS input = .ok (r, l) ∧ k ≤ queue.length ∧
      r.attempts = (queue.take k).map (attemptOf env) ∧
      l = log0 ++ (queue.take k).map (fun c => ApiCall.verify c.normalizedProjectId) ∧
      r.providedProjectId = input ∧
      (r.success = false →
        r = mkFailureResult input (normalizedProvidedOf input) (queue.map (attemptOf env)) ∧
        k = queue.length) := by
  unfold resolveGitlabProjectId
  rw [h]
  dsimp only []
  by_cases hflag : flag
  · rw [if_pos hflag]
    obtain ⟨k, r, l, hrun, hk, hatt, hlog, hprov, hfail⟩ :=
      loopQueued_run env input (normalizedProvidedOf input) queue [] log0
    exact ⟨k, r, l, hrun, hk, by simpa using hatt, hlog, hprov, fun hs => by
      simpa using hfail hs⟩
  · rw [if_neg hflag]
    obtain ⟨k, r, l, hrun, hk, hatt, hlog, hprov, hfail⟩ :=
      loopUnqueued_run env aS input (normalizedProvidedOf input) queue seen [] log0
    exact ⟨k, r, l, hrun, hk, by simpa using hatt, hlog, hprov, fun hs => by
      simpa using hfail hs⟩

/-- Is a wire call a `GET projects/{id}` verification request? -/
def isVerifyCall : ApiCall → Bool
  | .verify _ => true
  | _ => false

theorem init_log_no_verify {env : ResolveEnv} {aS : Bool} {input : Option String}
    {queue : List ProjectIdCandidate} {seen : List String} {flag : Bool} {log0 : List ApiCall}
    (h : resolveInit env aS input = .ok (queue, seen, flag, log0)) :
    log0.filter isVerifyCall = [] := by
  obtain ⟨-, -, -, hcases⟩ := resolveInit_spec h
  rcases hcases with ⟨n, -, -, hl0⟩ | ⟨cands, calls, -, -, hl0, hcallspec⟩
  · rw [hl0]; rfl
  · rw [hl0]
    rw [List.filter_eq_nil_iff]
    intro a ha
    rcases List.mem_cons.mp ha with ha | ha
    · subst ha; simp [isVerifyCall]
    · obtain ⟨t, ht⟩ := hcallspec a ha
      subst ht; simp [isVerifyCall]

/-! ## The claims -/

/-- C3: For every resolution in which the first enqueued candidate verifies
(2xx on `GET projects/{id}`), `resolveGitlabProjectId` returns
`success:true` with that candidate's data and stops: no later-tier
candidate is ever sent to the API, and the attempts list has length
exactly 1. -/
theorem claim3_first_success_short_circuit (env : ResolveEnv) (aS : Bool)
    (input : Option String) (c : ProjectIdCandidate) (rest : List ProjectIdCandidate)
    (seen : List String) (flag : Bool) (log0 : List ApiCall) (st : Nat)
    (d : ProjectDataSubset)
    (hinit : resolveInit env aS input = .ok (c :: rest, seen, flag, log0))
    (hproj : env.projects c.normalizedProjectId = .ok st d) :
    resolveGitlabProjectId env aS input =
      .ok (mkSuccessResult c d [attemptOf env c] input,
           log0 ++ [ApiCall.verify c.normalizedProjectId]) ∧
    (mkSuccessResult c d [attemptOf env c] input).success = true ∧
    (mkSuccessResult c d [attemptOf env c] input).attempts.length = 1 ∧
    (log0 ++ [ApiCall.verify c.normalizedProjectId]).filter isVerifyCall =
      [ApiCall.verify c.normalizedProjectId] := by
  have ha : attemptOf env c =
      { candidate := c, success := true, status := some st, projectData := some d } := by
    unfold attemptOf; rw [verify_ok hproj]
  refine ⟨?_, rfl, by simp [mkSuccessResult], ?_⟩
  · unfold resolveGitlabProjectId
    rw [hinit]
    dsimp only []
    by_cases hflag : flag
    · rw [if_pos hflag]
      simp only [resolveLoopQueued, verify_ok hproj, ha, List.nil_append]
    · rw [if_neg hflag]
      simp only [resolveLoopUnqueued, verify_ok hproj, ha, List.nil_append]
  · rw [List.filter_append, init_log_no_verify hinit, List.nil_append]
    rfl

theorem gitCand_source {env : ResolveEnv} {g : ProjectIdCandidate}
    (h : getProjectCandidateFromGit env = some g) : g.source = .git_remote := by
  unfold getProjectCandidateFromGit at h
  split at h
  · exact absurd h (by simp)
  · split at h
    · exact absurd h (by simp)
    · split at h
      · exact absurd h (by simp)
      · split at h
        · exact absurd h (by simp)
        · dsimp only [] at h
          split at h
          · exact absurd h (by simp)
          · split at h
            · exact absurd h (by simp)
            · obtain rfl := Option.some.inj h
              rfl

/-- C7: a git-remote-derived candidate whose remote host differs from the
configured API host is discarded before verification: the producer returns
`null`, and consequently no resolution run ever records a `git_remote`
attempt (so none is sent to the API). -/
theorem claim7_host_mismatch_discarded (env : ResolveEnv) (info : GitProjectInfo)
    (gu ah rh : String)
    (hinfo : env.gitInfo = some info) (hgu : info.gitlabUrl = some gu)
    (hah : getApiHost env = some ah) (hrh : urlHost gu = some rh) (hne : rh ≠ ah) :
    getProjectCandidateFromGit env = none ∧
    ∀ (aS : Bool) (input : Option String) (r : ProjectResolutionResult) (l : List ApiCall),
      resolveGitlabProjectId env aS input = .ok (r, l) →
      r.attempts.filter (fun a => a.candidate.source = ProjectIdResolutionSource.git_remote)
        = [] := by
  have hgune : gu ≠ "" := by
    intro habs
    rw [habs] at hrh
    rw [show urlHost "" = (none : Option String) from rfl] at hrh
    exact Option.noConfusion hrh
  have part1 : getProjectCandidateFromGit env = none := by
    unfold getProjectCandidateFromGit
    rw [hinfo]
    dsimp only []
    by_cases hb : info.isGitlabProject
    · rw [if_neg (by simpa using hb)]
      cases hpid : info.projectId with
      | none => rfl
      | some pid =>
        dsimp only []
        by_cases hpe : pid = ""
        · rw [if_pos hpe]
        · rw [if_neg hpe]
          rw [hah, hgu]
          dsimp only []
          rw [if_neg hgune, hrh]
          dsimp only []
          rw [if_pos (by simpa using hne)]
    · rw [if_pos (by simpa using hb)]
  refine ⟨part1, ?_⟩
  intro aS input r l hrun
  cases hinit : resolveInit env aS input with
  | error e =>
    unfold resolveGitlabProjectId at hrun
    rw [hinit] at hrun
    exact absurd hrun (by simp)
  | ok q4 =>
    obtain ⟨queue, seen, flag, log0⟩ := q4
    obtain ⟨k, r', l', hrun', hk, hatt, hlog, hprov, hfail⟩ := resolve_run hinit
    rw [hrun'] at hrun
    have hre : r' = r := congrArg Prod.fst (Except.ok.inj hrun)
    subst hre
    have hqueue : ∀ c ∈ queue, c.source ≠ ProjectIdResolutionSource.git_remote := by
      obtain ⟨-, -, -, hcases⟩ := resolveInit_spec hinit
      rcases hcases with ⟨n, -, hq, -⟩ | ⟨cands, calls, hf, hsub, -, -⟩
      · intro c hc
        rw [hq] at hc
        rw [List.mem_singleton.mp hc]
        simp
      · intro c hc
        obtain ⟨gpart, spart, hparts, -, -, hgmem, hsmem, -⟩ := fallback_parts hf
        have hcc : c ∈ cands := hsub.mem hc
        rw [hparts] at hcc
        rcases List.mem_append.mp hcc with hcc | hcc
        · exact absurd (hgmem c hcc) (by rw [part1]; simp)
        · rw [hsmem c hcc]; simp
    rw [List.filter_eq_nil_iff]
    intro a hmem
    rw [hatt] at hmem
    obtain ⟨c, hcmem, hac⟩ := List.mem_map.mp hmem
    have hcq : c ∈ queue := (List.take_sublist k queue).mem hcmem
    subst hac
    rw [attemptOf_candidate]
    simpa using hqueue c hcq

/-- C4 (amended): the reason of a failed resolution is `invalid_format`
when a truthy identifier failed normalization; else `not_found` when some
attempt recorded HTTP 404; else `not_detected` when no attempt was made;
and otherwise the reason is left unset (`none`) — a fourth, unnamed
outcome the original claim omits. -/
theorem claim4_failure_reason_assignment (env : ResolveEnv) (aS : Bool)
    (input : Option String) (r : ProjectResolutionResult) (l : List ApiCall)
    (hrun : resolveGitlabProjectId env aS input = .ok (r, l))
    (hfail : r.success = false) :
    r.reason =
      (if strTruthy input ∧ normalizedProvidedOf input = none then
         some ResolutionReason.invalid_format
       else if r.attempts.any (fun a => a.status = some 404) then
         some ResolutionReason.not_found
       else if r.attempts.length = 0 then some ResolutionReason.not_detected
       else none) := by
  cases hinit : resolveInit env aS input with
  | error e =>
    unfold resolveGitlabProjectId at hrun
    rw [hinit] at hrun
    exact absurd hrun (by simp)
  | ok q4 =>
    obtain ⟨queue, seen, flag, log0⟩ := q4
    obtain ⟨k, r', l', hrun', hk, hatt, hlog, hprov, hfl⟩ := resolve_run hinit
    rw [hrun'] at hrun
    have hre : r' = r := congrArg Prod.fst (Except.ok.inj hrun)
    subst hre
    obtain ⟨hr, hkk⟩ := hfl hfail
    rw [hr]
    simp only [mkFailureResult]

theorem sources_count_le {src : ProjectIdResolutionSource}
    {gpart spart : List ProjectIdCandidate}
    (hg : ∀ c ∈ gpart, c.source = .git_remote) (hs : ∀ c ∈ spart, c.source = .search)
    (hgl : gpart.length ≤ 1) (hsl : spart.length ≤ 1) :
    (((gpart ++ spart).map (fun c => c.source)).count src) ≤ 1 := by
  rw [List.map_append, List.count_append]
  have hgz : src ≠ .git_remote → (gpart.map (fun c => c.source)).count src = 0 := by
    intro hne
    rw [List.count_eq_zero]
    intro hmem
    obtain ⟨c, hc, hcs⟩ := List.mem_map.mp hmem
    rw [← hcs, hg c hc] at hne
    exact hne rfl
  have hsz : src ≠ .search → (spart.map (fun c => c.source)).count src = 0 := by
    intro hne
    rw [List.count_eq_zero]
    intro hmem
    obtain ⟨c, hc, hcs⟩ := List.mem_map.mp hmem
    rw [← hcs, hs c hc] at hne
    exact hne rfl
  have hgle : (gpart.map (fun c => c.source)).count src ≤ 1 := by
    calc (gpart.map (fun c => c.source)).count src ≤ (gpart.map (fun c => c.source)).length :=
      List.count_le_length _ _
    _ ≤ 1 := by simpa using hgl
  have hsle : (spart.map (fun c => c.source)).count src ≤ 1 := by
    calc (spart.map (fun c => c.source)).count src ≤ (spart.map (fun c => c.source)).length :=
      List.count_le_length _ _
    _ ≤ 1 := by simpa using hsl
  cases src with
  | input =>
    rw [hgz (by simp), hsz (by simp)]
    omega
  | git_remote =>
    rw [hsz (by simp)]
    omega
  | search =>
    rw [hgz (by simp)]
    omega

/-- C10: in every resolution run that returns, the fallback tier is
generated at most once, the attempts list has at most three records, no
two attempts share a normalized project id, and each provenance value
(`input`, `git_remote`, `search`) accounts for at most one attempt. -/
theorem claim10_resolution_invariants (env : ResolveEnv) (aS : Bool)
    (input : Option String) (r : ProjectResolutionResult) (l : List ApiCall)
    (hrun : resolveGitlabProjectId env aS input = .ok (r, l)) :
    l.count ApiCall.fallbackGen ≤ 1 ∧
    r.attempts.length ≤ 3 ∧
    (r.attempts.map (fun a => a.candidate.normalizedProjectId)).Nodup ∧
    ((r.attempts.map (fun a => a.candidate.source)).count ProjectIdResolutionSource.input ≤ 1 ∧
     (r.attempts.map (fun a => a.candidate.source)).count
        ProjectIdResolutionSource.git_remote ≤ 1 ∧
     (r.attempts.map (fun a => a.candidate.source)).count ProjectIdResolutionSource.search ≤ 1) := by
  cases hinit : resolveInit env aS input with
  | error e =>
    unfold resolveGitlabProjectId at hrun
    rw [hinit] at hrun
    exact absurd hrun (by simp)
  | ok q4 =>
    obtain ⟨queue, seen, flag, log0⟩ := q4
    obtain ⟨k, r', l', hrun', hk, hatt, hlog, hprov, hfl⟩ := resolve_run hinit
    rw [hrun'] at hrun
    have hre : r' = r := congrArg Prod.fst (Except.ok.inj hrun)
    have hle : l' = l := congrArg Prod.snd (Except.ok.inj hrun)
    rw [hre] at hatt
    rw [hle] at hlog
    obtain ⟨hnodup, hqlen, hcount, hcases⟩ := resolveInit_spec hinit
    have hmapcand : r.attempts.map (fun a => a.candidate) = queue.take k := by
      rw [hatt, List.map_map]
      have hfun : ((fun a : ProjectAttemptRecord => a.candidate) ∘ attemptOf env) = id := by
        funext c
        exact attemptOf_candidate env c
      rw [hfun, List.map_id]
    have hnormeq : r.attempts.map (fun a => a.candidate.normalizedProjectId) =
        (queue.take k).map (·.normalizedProjectId) := by
      have := congrArg (List.map (fun c : ProjectIdCandidate => c.normalizedProjectId)) hmapcand
      rw [List.map_map] at this
      exact this
    have hsrceq : r.attempts.map (fun a => a.candidate.source) =
        (queue.take k).map (fun c => c.source) := by
      have := congrArg (List.map (fun c : ProjectIdCandidate => c.source)) hmapcand
      rw [List.map_map] at this
      exact this
    refine ⟨?_, ?_, ?_, ?_⟩
    · rw [hlog, List.count_append]
      have hz : ((queue.take k).map
          (fun c => ApiCall.verify c.normalizedProjectId)).count ApiCall.fallbackGen = 0 := by
        rw [List.count_eq_zero]
        intro hmem
        obtain ⟨c, -, habs⟩ := List.mem_map.mp hmem
        exact ApiCall.noConfusion habs
      omega
    · rw [hatt, List.length_map]
      have := List.length_take_le k queue
      omega
    · rw [hnormeq]
      exact hnodup.sublist ((List.take_sublist k queue).map _)
    · have hqcount : ∀ src, ((queue.map (fun c => c.source)).count src) ≤ 1 := by
        intro src
        rcases hcases with ⟨n, -, hq, -⟩ | ⟨cands, calls, hf, hsub, -, -⟩
        · have hlen1 : (queue.map (fun c => c.source)).length ≤ 1 := by
            rw [hq]; simp
          exact (List.count_le_length _ _).trans hlen1
        · obtain ⟨gpart, spart, hparts, hgl, hsl, hgmem, hsmem, -⟩ := fallback_parts hf
          have h1 : ((queue.map (fun c => c.source)).count src)
              ≤ ((cands.map (fun c => c.source)).count src) :=
            (hsub.map _).count_le _
          have h2 : ((cands.map (fun c => c.source)).count src) ≤ 1 := by
            rw [hparts]
            exact sources_count_le (fun c hc => gitCand_source (hgmem c hc)) hsmem hgl hsl
          omega
      have htake : ∀ src, (((queue.take k).map (fun c => c.source)).count src) ≤ 1 := by
        intro src
        have h1 : (((queue.take k).map (fun c => c.source)).count src)
            ≤ ((queue.map (fun c => c.source)).count src) :=
          ((List.take_sublist k queue).map _).count_le _
        have h2 := hqcount src
        omega
      exact ⟨by rw [hsrceq]; exact htake _, by rw [hsrceq]; exact htake _, by
        rw [hsrceq]; exact htake _⟩

/-! ## Concrete environments for the remaining claims and witnesses -/

def sampleProjectData : ProjectDataSubset :=
  { id := 42, name := "proj", path_with_namespace := "group/proj",
    web_url := "https://gitlab.example.com/group/proj", visibility := "private" }

def sampleMRData : MergeRequestData :=
  { id := 7, web_url := "https://gitlab.example.com/group/proj/-/merge_requests/7",
    title := "feat: X", state := "opened", source_branch := "feature/x",
    target_branch := "main", author := "dev" }

/-- Direct input 404s; a same-host git remote candidate exists and would
verify (the `GET projects/group%2Fproj` responds 200). -/
def envC1 : ResolveEnv :=
  { apiBaseUrl := some "https://gitlab.example.com/api/v4"
    projects := fun id =>
      if id = "group%2Fproj" then .ok 200 sampleProjectData
      else .err (some 404) "Not Found" ""
    searchProjects := fun _ => .err (some 404) "Not Found" ""
    gitInfo := some { isGitlabProject := true, projectId := some "group%2Fproj",
                      projectPath := some "group/proj",
                      gitlabUrl := some "https://gitlab.example.com" }
    postMergeRequest := fun _ _ => .err (some 400) "Bad Request" "" }

/-- Every verification answers 401 Unauthorized. -/
def envC2 : ResolveEnv :=
  { envC1 with projects := fun _ => .err (some 401) "Unauthorized" "" }

/-- Every verification answers 404 and no git remote is available. -/
def env404 : ResolveEnv :=
  { envC1 with projects := fun _ => .err (some 404) "Not Found" "", gitInfo := none }

/-- Every verification succeeds. -/
def envOk : ResolveEnv :=
  { envC1 with
    projects := fun _ => .ok 200 sampleProjectData
    postMergeRequest := fun _ _ => .ok 201 sampleMRData }

/-- A git remote on `other.example.com` while the API host is
`gitlab.example.com`. -/
def envC7 : ResolveEnv :=
  { env404 with
    gitInfo := some { isGitlabProject := true, projectId := some "group%2Fproj",
                      projectPath := some "group/proj",
                      gitlabUrl := some "https://other.example.com" } }

def inputCandidate : ProjectIdCandidate :=
  { rawProjectId := "group/proj", normalizedProjectId := "group%2Fproj", source := .input }

def resolution404 : ProjectResolutionResult :=
  match resolveGitlabProjectId env404 true (some "group/proj") with
  | .ok (r, _) => r
  | .error _ => { success := true, attempts := [] }

def calls404 : List ApiCall :=
  match resolveGitlabProjectId env404 true (some "group/proj") with
  | .ok (_, l) => l
  | .error _ => []

def resolutionC7 : ProjectResolutionResult :=
  match resolveGitlabProjectId envC7 true none with
  | .ok (r, _) => r
  | .error _ => { success := true, attempts := [] }

def callsC7 : List ApiCall :=
  match resolveGitlabProjectId envC7 true none with
  | .ok (_, l) => l
  | .error _ => []

def resolutionC1 : ProjectResolutionResult :=
  match resolveGitlabProjectId envC1 true (some "nonexistent/project") with
  | .ok (r, _) => r
  | .error _ => { success := true, attempts := [] }

def callsC1 : List ApiCall :=
  match resolveGitlabProjectId envC1 true (some "nonexistent/project") with
  | .ok (_, l) => l
  | .error _ => []

def resolutionC2 : ProjectResolutionResult :=
  match resolveGitlabProjectId envC2 true (some "group/proj") with
  | .ok (r, _) => r
  | .error _ => { success := true, attempts := [] }

def callsC2 : List ApiCall :=
  match resolveGitlabProjectId envC2 true (some "group/proj") with
  | .ok (_, l) => l
  | .error _ => []

/-- C1: the intended 404-to-fallback cascade is dead code at runtime.
`envC1` is exactly the claim's scenario — verification of the direct input
answers 404 and a usable same-host git-remote candidate exists (its
`GET projects/group%2Fproj` would answer 200) — yet the run fails with a
single `input` attempt whose recorded status is `none`, only one
verification request is sent (the git candidate never is), and no
fallback tier is generated: `ApiClient.handleApiError` rethrows a plain
`Error` without the `isAxiosError` marker, so `verifyProjectCandidate`
never sees the 404 that line 2482 of src/index.ts tests for. -/
theorem claim1_404_cascade_dead :
    resolveGitlabProjectId envC1 true (some "nonexistent/project") =
      .ok (resolutionC1, callsC1) ∧
    resolutionC1.success = false ∧
    resolutionC1.source = none ∧
    resolutionC1.reason = none ∧
    resolutionC1.attempts.map (fun a => (a.candidate.source, a.success, a.status)) =
      [(ProjectIdResolutionSource.input, false, (none : Option Nat))] ∧
    callsC1 = [ApiCall.verify "nonexistent%2Fproject"] := by
  refine ⟨by decide, by decide, by decide, by decide, by decide, by decide⟩

/-- C2: a 401 on the first candidate does not abort the resolution.  The
transformed error carries no `isAxiosError` marker, so the
`status && status !== 404` rethrow in `verifyProjectCandidate` never
fires: the run returns (`.ok`, no exception propagates) an ordinary
`success:false` result with one attempt, recorded status `none` and no
reason, instead of surfacing an auth error. -/
theorem claim2_auth_error_swallowed :
    resolveGitlabProjectId envC2 true (some "group/proj") = .ok (resolutionC2, callsC2) ∧
    resolutionC2.success = false ∧
    resolutionC2.reason = none ∧
    resolutionC2.attempts.map (fun a => (a.candidate.source, a.success, a.status)) =
      [(ProjectIdResolutionSource.input, false, (none : Option Nat))] ∧
    callsC2 = [ApiCall.verify "group%2Fproj"] := by
  refine ⟨by decide, by decide, by decide, by decide, by decide⟩

/-- C4 (counterexample): a failed resolution whose `reason` is none of
`invalid_format`/`not_found`/`not_detected` — the input normalized fine,
one attempt was made, and no attempt carries a 404 status (the
transformed error has none), so the reason if-chain falls through. -/
theorem claim4_counterexample :
    resolveGitlabProjectId env404 true (some "group/proj") = .ok (resolution404, calls404) ∧
    resolution404.success = false ∧
    resolution404.reason = none := by
  refine ⟨by decide, by decide, by decide⟩

/-- C5 (counterexample): the claimed output for the unrecognized-prefix
branch is wrong — `\b\w` upper-cases the word character after the `/` as
well, so the segment after the slash is also title-cased. -/
theorem claim5_counterexample :
    generateMRTitle "chore/cleanup" ≠ "feat: Chore/cleanup" := by decide

/-- C5 (amended): the exact title-generation table of the code — the
first three rows as claimed, and `"chore/cleanup"` mapping to
`"feat: Chore/Cleanup"` (every word character at a word boundary is
upper-cased, including the one after the slash). -/
theorem claim5_title_generation_table :
    generateMRTitle "feature/user-login" = "feat: User Login" ∧
    generateMRTitle "bugfix/fix-password-reset" = "fix: fix-password-reset" ∧
    generateMRTitle "docs/update-readme" = "docs: update-readme" ∧
    generateMRTitle "chore/cleanup" = "feat: Chore/Cleanup" := by
  refine ⟨by decide, by decide, by decide, by decide⟩

/-- C6: `createMergeRequest` with an absent, empty or whitespace-only
`sourceBranch` returns a structured `success:false` immediately — no wire
call of any kind and no project resolution. -/
theorem claim6_empty_source_branch (env : ResolveEnv) (args : CreateMRArgs)
    (h : jsTrim (args.sourceBranch.getD "") = "") :
    createMergeRequest env args =
      .ok { success := false, resolutionRan := false, calls := [] } := by
  unfold createMergeRequest
  dsimp only []
  rw [h, if_pos rfl]

/-- C8: `normalizeProjectId` is idempotent on its successes; in
particular an already percent-encoded identifier (trimmed, containing
`%`) and a pure-digit identifier are returned unchanged. -/
theorem claim8_normalization_idempotent :
    (∀ s r : String, normalizeProjectId s = some r → normalizeProjectId r = some r) ∧
    (∀ s : String, s ≠ "" → jsTrim s = s → s.data.contains '%' = true →
      normalizeProjectId s = some s) ∧
    (∀ s : String, s ≠ "" → s.data.all isDigitChar = true →
      normalizeProjectId s = some s) :=
  ⟨fun _ _ => normalize_idem, fun _ => normalize_of_percent, fun _ => normalize_of_digits⟩

/-- C9: `executeGitCommand` restores the process working directory
unconditionally — whatever the command and whether the inspection
succeeded or threw, the process state after the call has the original
`cwd` (the saved directory exists, since the process was in it). -/
theorem claim9_working_directory_restored (genv : GitEnv)
    (command workingDirectory : String) (remoteNameArg : Option String) (st : ProcState)
    (h : genv.dirExists st.cwd = true) :
    ((executeGitCommand genv command workingDirectory remoteNameArg st).2).cwd = st.cwd := by
  unfold executeGitCommand
  dsimp only []
  rw [show chdirTo genv st.cwd = some { cwd := st.cwd } from by
    unfold chdirTo; rw [if_pos h]]

/-! ## Witnesses -/

theorem claim3_witness :
    resolveGitlabProjectId envOk true (some "group/proj") =
      .ok (mkSuccessResult inputCandidate sampleProjectData
            [attemptOf envOk inputCandidate] (some "group/proj"),
           [] ++ [ApiCall.verify inputCandidate.normalizedProjectId]) ∧
    (mkSuccessResult inputCandidate sampleProjectData
      [attemptOf envOk inputCandidate] (some "group/proj")).success = true ∧
    (mkSuccessResult inputCandidate sampleProjectData
      [attemptOf envOk inputCandidate] (some "group/proj")).attempts.length = 1 ∧
    ([] ++ [ApiCall.verify inputCandidate.normalizedProjectId]).filter isVerifyCall =
      [ApiCall.verify inputCandidate.normalizedProjectId] :=
  claim3_first_success_short_circuit envOk true (some "group/proj") inputCandidate []
    ["group%2Fproj"] false [] 200 sampleProjectData (by decide) (by decide)

theorem claim4_witness :
    resolution404.reason =
      (if strTruthy (some "group/proj") ∧ normalizedProvidedOf (some "group/proj") = none then
         some ResolutionReason.invalid_format
       else if resolution404.attempts.any (fun a => a.status = some 404) then
         some ResolutionReason.not_found
       else if resolution404.attempts.length = 0 then some ResolutionReason.not_detected
       else none) :=
  claim4_failure_reason_assignment env404 true (some "group/proj") resolution404 calls404
    (by decide) (by decide)

theorem claim6_witness :
    createMergeRequest env404 { sourceBranch := some "   " } =
      .ok { success := false, resolutionRan := false, calls := [] } :=
  claim6_empty_source_branch env404 { sourceBranch := some "   " } (by decide)

theorem claim7_witness :
    getProjectCandidateFromGit envC7 = none ∧
    resolutionC7.attempts.filter
      (fun a => a.candidate.source = ProjectIdResolutionSource.git_remote) = [] := by
  have h := claim7_host_mismatch_discarded envC7
    { isGitlabProject := true, projectId := some "group%2Fproj",
      projectPath := some "group/proj", gitlabUrl := some "https://other.example.com" }
    "https://other.example.com" "gitlab.example.com" "other.example.com"
    rfl rfl (by decide) (by decide) (by decide)
  exact ⟨h.1, h.2 true none resolutionC7 callsC7 (by decide)⟩

theorem claim8_witness :
    normalizeProjectId "group%2Fproj" = some "group%2Fproj" ∧
    normalizeProjectId "a%20b" = some "a%20b" ∧
    normalizeProjectId "12345" = some "12345" :=
  ⟨claim8_normalization_idempotent.1 "group/proj" "group%2Fproj" (by decide),
   claim8_normalization_idempotent.2.1 "a%20b" (by decide) (by decide) (by decide),
   claim8_normalization_idempotent.2.2 "12345" (by decide) (by decide)⟩

def genvC9 : GitEnv :=
  { dirExists := fun _ => true
    branchInfoAt := fun d =>
      { currentBranch := "main", allBranches := ["main"], isGitRepository := true,
        repositoryRoot := some d }
    projectInfoAt := fun _ _ => { isGitlabProject := false } }

theorem claim9_witness :
    ((executeGitCommand genvC9 "get_current_branch" "/repo" none
        { cwd := "/home/user" }).2).cwd = "/home/user" :=
  claim9_working_directory_restored genvC9 "get_current_branch" "/repo" none
    { cwd := "/home/user" } (by decide)

theorem claim10_witness :
    calls404.count ApiCall.fallbackGen ≤ 1 ∧
    resolution404.attempts.length ≤ 3 ∧
    (resolution404.attempts.map (fun a => a.candidate.normalizedProjectId)).Nodup ∧
    ((resolution404.attempts.map (fun a => a.candidate.source)).count
        ProjectIdResolutionSource.input ≤ 1 ∧
     (resolution404.attempts.map (fun a => a.candidate.source)).count
        ProjectIdResolutionSource.git_remote ≤ 1 ∧
     (resolution404.attempts.map (fun a => a.candidate.source)).count
        ProjectIdResolutionSource.search ≤ 1) :=
  claim10_resolution_invariants env404 true (some "group/proj") resolution404 calls404
    (by decide)

end GitlabReviewMcp
